import Mathlib

/-!
# Verification of the neuro-note audio capture / recording core

A shallow embedding of the recording state machine, voice-activity detector,
MP3 segment writer, and streaming-transcription helpers of the `neuro-note`
repository (`src-tauri/src/lib.rs`, `audio.rs`, `soniox.rs`,
`lame_encoder/mod.rs`), together with theorems about the embedded code.

Modelling conventions:
* Monotonic instants (`std::time::Instant`) are natural numbers of
  milliseconds; `Instant::elapsed` is truncated subtraction (matching the
  saturating semantics of `Instant` differences).
* `f32`/`f64` arithmetic is modelled over `ℚ`; square roots are not taken
  (where the source computes an RMS we carry the radicand, see
  `LevelPayload`).
* Rust `String`s are modelled as their character sequences (`List Char`);
  Unicode-only behaviour (`char::to_uppercase`, Unicode whitespace in
  `str::trim`) is modelled at ASCII precision.
* Mutexes are modelled away: each command handler runs atomically on the
  relevant `AppState` fields, which is the interleaving granularity the
  handlers themselves enforce by taking the locks.
-/

set_option autoImplicit false

namespace NeuroNote

/-! ## Recording state machine (`src-tauri/src/lib.rs`)

`RecordingState` stores its timestamps as `String`s produced by formatting an
`Instant` (`format!` with the debug formatter); the formatting is an injective
image of the instant, so the model stores the instant itself. -/

inductive RecordingState where
  | idle
  | starting
  | recording (startTime : Nat) (elapsedMs : Nat)
  | paused (pauseTime : Nat) (elapsedMs : Nat)
  | resuming
  | stopping
deriving DecidableEq, Repr

/-- `RecordingConfig` from lib.rs. -/
structure RecordingConfig where
  path : String
  format : String
  quality : String
deriving DecidableEq, Repr

/-- `RecordingSession` from lib.rs (`start_time` is an instant,
`total_elapsed` a duration, both in milliseconds). -/
structure RecordingSession where
  config : RecordingConfig
  startTime : Nat
  totalElapsed : Nat
  state : RecordingState
deriving DecidableEq, Repr

/-- The recording-related fields of `AppState`.  `sonioxOpen` models
`soniox_tx.lock().is_some()` (whether a transcription session is attached). -/
structure App where
  currentState : RecordingState
  session : Option RecordingSession
  writingEnabled : Bool
  sonioxOpen : Bool
deriving DecidableEq, Repr

/-- `AppState::default()`, restricted to the modelled fields. -/
def initialApp : App :=
  { currentState := .idle, session := none, writingEnabled := false, sonioxOpen := false }

/-- The error returned by `transition_state` on a source-state mismatch.  The
source interpolates the expected and found states into the message; the model
keeps the fixed prefix. -/
def invalidTransitionMsg : String := "Invalid state transition"

def noSessionForPauseMsg : String := "No recording session found for pause"

def cannotStartMsg : String := "Cannot start recording in state"

def cannotPauseMsg : String := "Cannot pause in state"

def cannotResumeMsg : String := "Cannot resume in state"

def cannotStopMsg : String := "Cannot stop in state"

/-- `AppState::transition_state`.  `now` stands for the `Instant::now()` calls
made inside the function (made microseconds apart in the source).  On a
mismatch the function returns the error before any mutation, so the `App` is
returned unchanged. -/
def transitionState (app : App) (src dst : RecordingState) (now : Nat) :
    Except String Unit × App :=
  if app.currentState ≠ src then
    (.error invalidTransitionMsg, app)
  else
    match dst with
    | .recording _ _ => (.ok (), { app with currentState := .recording now 0 })
    | .paused _ _ =>
        match app.session with
        | some s =>
            (.ok (), { app with
              currentState := .paused now ((now - s.startTime) + s.totalElapsed) })
        | none => (.error noSessionForPauseMsg, app)
    | d => (.ok (), { app with currentState := d })

/-- `AppState::handle_start_command`. -/
def handleStart (app : App) (path fmt quality : String) (now : Nat) :
    Except String String × App :=
  if app.currentState ≠ .idle then
    (.error cannotStartMsg, app)
  else
    match transitionState app .idle .starting now with
    | (.error e, app') => (.error e, app')
    | (.ok _, app1) =>
        let config : RecordingConfig := { path := path, format := fmt, quality := quality }
        let session : RecordingSession :=
          { config := config, startTime := now, totalElapsed := 0, state := .starting }
        let app2 := { app1 with session := some session }
        let app3 := { app2 with writingEnabled := true }
        match transitionState app3 .starting (.recording now 0) now with
        | (.error e, app') => (.error e, app')
        | (.ok _, app4) => (.ok ("Started recording to: " ++ path), app4)

/-- `AppState::handle_pause_command`.  Writing is disabled before the
validated transition, mirroring the statement order of the source. -/
def handlePause (app : App) (now : Nat) : Except String String × App :=
  match app.currentState with
  | .recording t e =>
      let app1 := { app with writingEnabled := false }
      match transitionState app1 (.recording t e) (.paused now 0) now with
      | (.error err, app') => (.error err, app')
      | (.ok _, app2) => (.ok "Recording paused", app2)
  | _ => (.error cannotPauseMsg, app)

/-- `AppState::handle_resume_command`.  The session update is the literal
source computation: `total_elapsed = start_time.elapsed()` followed by
`start_time = Instant::now()`. -/
def handleResume (app : App) (now : Nat) : Except String String × App :=
  match app.currentState with
  | .paused t e =>
      match transitionState app (.paused t e) .resuming now with
      | (.error err, app') => (.error err, app')
      | (.ok _, app1) =>
          let app2 := { app1 with writingEnabled := true }
          let newSession :=
            match app2.session with
            | some s => some ({ s with totalElapsed := now - s.startTime, startTime := now })
            | none => none
          let app3 := { app2 with session := newSession }
          match transitionState app3 .resuming (.recording now 0) now with
          | (.error err, app') => (.error err, app')
          | (.ok _, app4) => (.ok "Recording resumed", app4)
  | _ => (.error cannotResumeMsg, app)

/-- Body of `handle_stop_command` once the state matched
`Recording { .. } | Paused { .. }`. -/
def handleStopActive (app : App) (cur : RecordingState) (now : Nat) :
    Except String String × App :=
  match transitionState app cur .stopping now with
  | (.error err, app') => (.error err, app')
  | (.ok _, app1) =>
      let app2 := { app1 with writingEnabled := false }
      let path :=
        match app2.session with
        | some s => s.config.path
        | none => "recording.wav"
      let app3 := { app2 with session := none }
      match transitionState app3 .stopping .idle now with
      | (.error err, app') => (.error err, app')
      | (.ok _, app4) => (.ok path, app4)

/-- `AppState::handle_stop_command`. -/
def handleStop (app : App) (now : Nat) : Except String String × App :=
  match app.currentState with
  | .recording t e => handleStopActive app (.recording t e) now
  | .paused t e => handleStopActive app (.paused t e) now
  | _ => (.error cannotStopMsg, app)

/-! ## Capture callback (`build_stream_f32` in lib.rs)

The callback runs on the audio driver thread.  Per invocation it computes the
level telemetry, persists the converted samples when writing is enabled, and
try-sends the chunk on the transcription channel when one is attached. -/

/-- Payload of the `audio-level` event.  The source emits
`rms = sqrt(sum_sq / len.max(1))`; the model carries the radicand
`meanSquare` (the square root of a nonnegative rational is not rational). -/
structure LevelPayload where
  meanSquare : ℚ
  peak : ℚ
deriving DecidableEq, Repr

/-- `soniox::AudioChunk`. -/
structure AudioChunk where
  samples : List Int
  channels : Nat
  sampleRate : Nat
deriving DecidableEq, Repr

/-- `x.clamp(-1.0, 1.0)`. -/
def clampUnit (x : ℚ) : ℚ := max (-1) (min 1 x)

/-- Truncation toward zero: the semantics of Rust `as` casts from float to
integer.  Saturation is elided; every value cast in this development is
provably within range. -/
def truncQ (q : ℚ) : Int := if 0 ≤ q then ⌊q⌋ else ⌈q⌉

/-- `(sample.clamp(-1.0, 1.0) * i16::MAX as f32) as i16`. -/
def f32ToI16 (x : ℚ) : Int := truncQ (clampUnit x * 32767)

/-- The observable effects of one f32 capture-callback invocation. -/
structure CallbackOut where
  level : LevelPayload
  written : List Int
  sent : Option AudioChunk
deriving DecidableEq, Repr

/-- The closure installed by `build_stream_f32`: always compute and emit the
level payload; write each converted sample to the writer only when
`is_writing_enabled()`; always try-send the converted chunk to the Soniox
channel when a session is attached (`try_send` may drop on a full channel;
the model records the attempted chunk). -/
def callbackF32 (writingEnabled sonioxOpen : Bool) (data : List ℚ)
    (channels sampleRate : Nat) : CallbackOut :=
  let acc := data.foldl
    (fun (a : ℚ × ℚ) x =>
      let s := clampUnit x
      (max a.1 |s|, a.2 + s * s)) (0, 0)
  let level : LevelPayload :=
    { meanSquare := acc.2 / (max data.length 1 : ℚ), peak := acc.1 }
  let written := if writingEnabled then data.map f32ToI16 else []
  let sent :=
    if sonioxOpen then
      some { samples := data.map f32ToI16, channels := channels, sampleRate := sampleRate }
    else none
  { level := level, written := written, sent := sent }

/-! ## Voice activity detector (`arm_auto_recording` / `process_chunk` in lib.rs)

`process_chunk` first computes the per-chunk meter values (`rms`, `peak`) and
the chunk duration; the detector logic then runs on those values.  The model
takes the measured values as the per-chunk input (`ChunkMeas`); the
sample-buffer effects (pre-roll ring buffer, writes to the session writer) do
not feed back into the calibration or detection state and are not part of
this state record. -/

/-- Parameters of one armed VAD session (after `unwrap_or` defaulting). -/
structure VadConfig where
  threshold : ℚ
  minSpeechMs : Nat
  silenceMs : Nat
deriving DecidableEq, Repr

/-- `cooldown_ms_default` in `arm_auto_recording`. -/
def cooldownMsDefault : Nat := 500

/-- Initial value of `calib_left_ms`: one second of noise-floor calibration. -/
def calibrationWindowMs : Nat := 1000

/-- The measurements `process_chunk` derives from one chunk before updating
the detector state: `rms` and `peak` as computed by the meter loop, `chunkMs`
the value of `chunk_ms as u32` (the truncated chunk duration), and `zcr` the
zero-crossing rate. -/
structure ChunkMeas where
  rms : ℚ
  peak : ℚ
  chunkMs : Nat
  zcr : ℚ
deriving DecidableEq, Repr

/-- The mutable detector state captured by the `process_chunk` closure. -/
structure VadState where
  smoothed : ℚ
  aboveMs : Nat
  belowMs : Nat
  cooldownLeftMs : Nat
  isRecordingVoice : Bool
  thresholdEff : ℚ
  calibLeftMs : Nat
  noiseEnergyAccum : ℚ
  noiseTimeAccumMs : ℚ
  noisePeakMax : ℚ
deriving DecidableEq, Repr

/-- Detector state as initialised in `arm_auto_recording`. -/
def vadInit (cfg : VadConfig) : VadState :=
  { smoothed := 0, aboveMs := 0, belowMs := 0, cooldownLeftMs := 0,
    isRecordingVoice := false, thresholdEff := cfg.threshold,
    calibLeftMs := calibrationWindowMs, noiseEnergyAccum := 0,
    noiseTimeAccumMs := 0, noisePeakMax := 0 }

/-- `smoothed = 0.9 * smoothed + 0.1 * rms`. -/
def smoothedUpdate (smoothed rms : ℚ) : ℚ := (9 / 10) * smoothed + (1 / 10) * rms

/-- The noise-floor calibration block of `process_chunk` (the body of
`if calib_left_ms > 0 { .. }`). -/
def calibUpdate (st : VadState) (m : ChunkMeas) : VadState :=
  if 0 < st.calibLeftMs then
    let usedMs : Nat := min st.calibLeftMs m.chunkMs
    let nE := st.noiseEnergyAccum + m.rms * (usedMs : ℚ)
    let nT := st.noiseTimeAccumMs + (usedMs : ℚ)
    let calibLeft := st.calibLeftMs - m.chunkMs
    let nP := max st.noisePeakMax m.peak
    let thr :=
      if calibLeft = 0 ∧ 0 < nT then
        let noiseAvg := nE / nT
        let dynThr := max (max (noiseAvg * 6) (nP * (6 / 10))) (1 / 100)
        max st.thresholdEff dynThr
      else st.thresholdEff
    { st with calibLeftMs := calibLeft, noiseEnergyAccum := nE,
              noiseTimeAccumMs := nT, noisePeakMax := nP, thresholdEff := thr }
  else st

/-- `if cooldown_left_ms > 0 { cooldown_left_ms = cooldown_left_ms.saturating_sub(chunk_ms as u32) }`. -/
def cooldownDec (cd chunkMs : Nat) : Nat := if 0 < cd then cd - chunkMs else cd

/-- `samples.iter().step_by(step)`: every `n`-th element starting at the
first.  (`step_by` requires `n ≥ 1`; the source passes `channels.max(1)`.) -/
def stepBySamples (n : Nat) : List Int → List Int
  | [] => []
  | x :: xs => x :: stepBySamples n (xs.drop (n - 1))
termination_by l => l.length
decreasing_by
  simp only [List.length_drop, List.length_cons]
  omega

/-- `(s ^ prev) < 0` on `i16`: the XOR is negative exactly when the sign bits
differ. -/
def signsDiffer (a b : Int) : Bool := decide ((a < 0) ≠ (b < 0))

/-- Number of sign changes between consecutive stepped samples (the loop skips
the comparison at index 0). -/
def countSignChanges : List Int → Nat
  | a :: b :: rest => (if signsDiffer a b then 1 else 0) + countSignChanges (b :: rest)
  | _ => 0

/-- The zero-crossing-rate computation of `process_chunk` (computed and
logged; see `voice_detection_rule` for its non-influence on detection). -/
def zcrOfChunk (samples : List Int) (channels : Nat) (chunkMs : ℚ) : ℚ :=
  let stepped := stepBySamples (max channels 1) samples
  let zc := countSignChanges stepped
  if 0 < chunkMs then (zc : ℚ) * 1000 / chunkMs else 0

/-- One `process_chunk` step on the detector state, returning the updated
state together with the chunk's `voice_detected` flag.  Statement order
follows the source: smoothing, calibration, cooldown decrement,
detection, then the hysteresis counters. -/
def vadStepD (cfg : VadConfig) (st : VadState) (m : ChunkMeas) : VadState × Bool :=
  let st1 := { st with smoothed := smoothedUpdate st.smoothed m.rms }
  let st2 := calibUpdate st1 m
  let cd := cooldownDec st2.cooldownLeftMs m.chunkMs
  let voiceDetected : Bool :=
    (cd == 0) && (decide (st2.thresholdEff < st2.smoothed)
      || decide (st2.thresholdEff * (8 / 10) < m.peak))
  let st3 :=
    if voiceDetected then
      let above := st2.aboveMs + m.chunkMs
      if cfg.minSpeechMs ≤ above ∧ st2.isRecordingVoice = false then
        { st2 with cooldownLeftMs := cd, aboveMs := above, belowMs := 0,
                   isRecordingVoice := true }
      else
        { st2 with cooldownLeftMs := cd, aboveMs := above, belowMs := 0 }
    else
      if st2.isRecordingVoice then
        let below := st2.belowMs + m.chunkMs
        if cfg.silenceMs ≤ below then
          { st2 with cooldownLeftMs := cooldownMsDefault, aboveMs := 0,
                     belowMs := 0, isRecordingVoice := false }
        else
          { st2 with cooldownLeftMs := cd, aboveMs := 0, belowMs := below }
      else
        { st2 with cooldownLeftMs := cd, aboveMs := 0 }
  (st3, voiceDetected)

/-- The state part of one `process_chunk` step. -/
def vadStep (cfg : VadConfig) (st : VadState) (m : ChunkMeas) : VadState :=
  (vadStepD cfg st m).1

/-- Detector state after processing a sequence of chunks from a fresh arm. -/
def vadRun (cfg : VadConfig) (ms : List ChunkMeas) : VadState :=
  ms.foldl (vadStep cfg) (vadInit cfg)

/-! ## MP3 segment writer (`audio.rs`) and codec binding (`lame_encoder/mod.rs`)

The native encoder's byte output is behind FFI; the model records every
`encoder.encode` invocation (its channel buffers and the length of the output
buffer passed) and counts `encoder.flush` invocations.  Capacity hints
(`Vec::with_capacity`) carry no semantics and are dropped. -/

/-- `c_int::max_value()` (the `int_size` bound in `lame_encoder/mod.rs`). -/
def cIntMax : Nat := 2147483647

/-- One recorded `encoder.encode` invocation. -/
structure EncodeCall where
  left : List Int
  right : List Int
  mp3Len : Nat
deriving DecidableEq, Repr

/-- The explicit panics of `Lame::encode`: the defensive equal-length check,
and `int_size` on `pcm_left.len()` and on `mp3_buffer.len()` (`pcm_right` is
not converted separately once the lengths are known equal). -/
def encodePanics (pcmLeft pcmRight : List Int) (mp3Len : Nat) : Bool :=
  (pcmLeft.length != pcmRight.length)
    || decide (cIntMax < pcmLeft.length)
    || decide (cIntMax < mp3Len)

/-- The `buffer.chunks(2)` split of `flush_mp3_buffer` for `channels != 1`:
pairs go left/right, an odd trailing sample is matched by a `0` on the
right. -/
def splitStereo : List Int → List Int × List Int
  | [] => ([], [])
  | [a] => ([a], [0])
  | a :: b :: rest => (a :: (splitStereo rest).1, b :: (splitStereo rest).2)

/-- The channel split of `flush_mp3_buffer`: mono duplicates the buffer to
both channels, otherwise the interleaved buffer is split pairwise. -/
def splitChannels (buffer : List Int) (channels : Nat) : List Int × List Int :=
  if channels = 1 then (buffer, buffer) else splitStereo buffer

/-- `vec![0u8; (left_channel.len() * 5 / 4 + 7200).max(16384)]`. -/
def mp3OutLen (leftLen : Nat) : Nat := max (leftLen * 5 / 4 + 7200) 16384

/-- The `AudioWriter::Mp3` variant, instrumented with the codec-binding call
log (`encodeCalls` for `encoder.encode`, `flushCalls` for `encoder.flush`). -/
structure Mp3Writer where
  buffer : List Int
  channels : Nat
  encodeCalls : List EncodeCall
  flushCalls : Nat
deriving DecidableEq, Repr

/-- A just-created MP3 writer (`buffer: Vec::new()`). -/
def freshMp3Writer (channels : Nat) : Mp3Writer :=
  { buffer := [], channels := channels, encodeCalls := [], flushCalls := 0 }

/-- `AudioWriter::flush_mp3_buffer`: early-return on an empty buffer,
otherwise split channels, invoke `encoder.encode` once, and clear the
buffer (cleared even when the encode reports an error, which is logged and
skipped). -/
def flushMp3Buffer (w : Mp3Writer) : Mp3Writer :=
  if w.buffer = [] then w
  else
    let lr := splitChannels w.buffer w.channels
    { w with buffer := [],
             encodeCalls := w.encodeCalls ++
               [{ left := lr.1, right := lr.2, mp3Len := mp3OutLen lr.1.length }] }

/-- `AudioWriter::write_sample` for the MP3 variant: push, then flush once the
buffer holds at least `1152 * channels` samples. -/
def writeSample (w : Mp3Writer) (s : Int) : Mp3Writer :=
  let w1 := { w with buffer := w.buffer ++ [s] }
  if 1152 * w1.channels ≤ w1.buffer.length then flushMp3Buffer w1 else w1

/-- A sequence of `write_sample` calls. -/
def writeSamples (w : Mp3Writer) (samples : List Int) : Mp3Writer :=
  samples.foldl writeSample w

/-- `AudioWriter::finalize` for the MP3 variant: flush the partial buffered
frame, then invoke `encoder.flush` once. -/
def finalizeWriter (w : Mp3Writer) : Mp3Writer :=
  let w1 := flushMp3Buffer w
  { w1 with flushCalls := w1.flushCalls + 1 }

/-! ## Wire conversion `to_pcm16_mono_16k` (soniox.rs)

Bytes are natural numbers below 256.  The i32 downmix accumulator is modelled
with an explicit range check standing for the overflow panic of debug-build
Rust arithmetic; the theorems show the check never fires for i16 input. -/

def i32Min : Int := -2147483648

def i32Max : Int := 2147483647

/-- `samples.chunks(channels)` (channel groups of the interleaved input; the
final group may be short).  The source only reaches this with
`channels ≥ 2`. -/
def chunksOf (n : Nat) : List Int → List (List Int)
  | [] => []
  | x :: xs => (x :: xs).take n :: chunksOf n (xs.drop (n - 1))
termination_by l => l.length
decreasing_by
  simp only [List.length_drop, List.length_cons]
  omega

/-- Wrap-around of an integer into `i16` range (the semantics of `as i16` on
an `i32`; the downmix average is provably already in range). -/
def wrapI16 (x : Int) : Int := (x + 32768) % 65536 - 32768

/-- Little-endian byte serialisation of one `i16` sample
(`s.to_le_bytes()`). -/
def toLeBytes (s : Int) : List Nat :=
  let u := (s % 65536).toNat
  [u % 256, u / 256]

/-- The downmix loop: per channel group, sum into an `i32` (range-checked),
divide by the channel count (truncating division), and narrow to `i16`. -/
def downmixChunks (channels : Nat) : List (List Int) → Except String (List Int)
  | [] => .ok []
  | chunk :: rest =>
      let sum := chunk.foldl (· + ·) 0
      if sum < i32Min ∨ i32Max < sum then .error "i32 overflow in downmix"
      else
        match downmixChunks channels rest with
        | .error e => .error e
        | .ok tail => .ok (wrapI16 (Int.tdiv sum (channels : Int)) :: tail)

/-- `soniox::to_pcm16_mono_16k`: downmix to mono, then either serialise
directly (16 kHz input) or linearly resample to 16 kHz.  Float positions are
exact rationals; `floor as usize` is `Int.toNat ∘ Int.floor` (the positions
are nonnegative); neighbour lookups use `get(..).unwrap_or(&0)` semantics via
`List.getD`. -/
def to_pcm16_mono_16k (samples : List Int) (channels : Nat) (sampleRate : Nat) :
    Except String (List Nat) :=
  let monoE : Except String (List Int) :=
    if channels ≤ 1 then .ok samples
    else downmixChunks channels (chunksOf channels samples)
  match monoE with
  | .error e => .error e
  | .ok mono =>
      if sampleRate = 16000 then
        .ok (mono.flatMap toLeBytes)
      else
        let rq : ℚ := 16000 / (sampleRate : ℚ)
        let outLen : Nat := (⌈(mono.length : ℚ) * rq⌉).toNat
        let out : List Int := (List.range outLen).map (fun i =>
          let srcPos : ℚ := (i : ℚ) / rq
          let idx : Nat := (⌊srcPos⌋).toNat
          let frac : ℚ := srcPos - ((⌊srcPos⌋ : ℤ) : ℚ)
          let s0 : ℚ := ((mono.getD idx 0 : ℤ) : ℚ)
          let s1 : ℚ := ((mono.getD (min (idx + 1) (mono.length - 1)) 0 : ℤ) : ℚ)
          truncQ (s0 + (s1 - s0) * frac))
        .ok (out.flatMap toLeBytes)

/-! ## Transcript rendering (`soniox.rs`)

Rust `String`s are modelled as `List Char`; literals are written as
`"...".data`.  The per-speaker `HashMap`s are modelled as association lists
(the maps are only ever read through keyed lookups; iteration is driven by
the separate `speaker_order` vector). -/

/-- `str::trim` (ASCII whitespace precision). -/
def trimChars (l : List Char) : List Char :=
  ((l.dropWhile Char.isWhitespace).reverse.dropWhile Char.isWhitespace).reverse

/-- Prefix test used by literal replacement. -/
def startsWithChars : List Char → List Char → Bool
  | [], _ => true
  | _ :: _, [] => false
  | p :: ps, x :: xs => (p == x) && startsWithChars ps xs

/-- Scanner of `replaceChars`, structurally recursive on a fuel argument;
every recursive call consumes at least one character, so fuel equal to the
list length (as passed by `replaceChars`) never runs out. -/
def replaceCharsGo (pat rep : List Char) : Nat → List Char → List Char
  | _, [] => []
  | 0, l => l
  | fuel + 1, x :: xs =>
      if pat ≠ [] ∧ startsWithChars pat (x :: xs) = true then
        rep ++ replaceCharsGo pat rep fuel ((x :: xs).drop pat.length)
      else
        x :: replaceCharsGo pat rep fuel xs

/-- `str::replace`: every non-overlapping occurrence of `pat`, scanning left
to right, is replaced by `rep` (the replacement is not rescanned).  The
source only calls this with non-empty patterns. -/
def replaceChars (pat rep l : List Char) : List Char :=
  replaceCharsGo pat rep l.length l

/-- Scanner of `stripDelimited`, structurally recursive on a fuel argument
(fuel equal to the list length never runs out). -/
def stripDelimitedGo (openC closeC : Char) : Nat → List Char → List Char
  | _, [] => []
  | 0, l => l
  | fuel + 1, x :: xs =>
      if x = openC then
        if xs.any (fun c => c == closeC) then
          stripDelimitedGo openC closeC fuel ((xs.dropWhile (fun c => c != closeC)).drop 1)
        else x :: xs
      else x :: stripDelimitedGo openC closeC fuel xs

/-- `replace_all` for the patterns `<[^>]*>` and `\[[^\]]*\]`: at each opening
delimiter with a closing delimiter somewhere after it, the leftmost match
(through the first closing delimiter) is removed and scanning resumes after
it; an opening delimiter with no closing delimiter ever after it cannot start
a match, and then no later position can either. -/
def stripDelimited (openC closeC : Char) (l : List Char) : List Char :=
  stripDelimitedGo openC closeC l.length l

/-- `clean_transcript_text_preserve_spacing`: fixed tag replacements, then
removal of remaining angle-bracket tags, then square-bracket tags. -/
def cleanTranscriptText (text : List Char) : List Char :=
  let c1 := replaceChars "<END>".data [] text
  let c2 := replaceChars "<UNK>".data [] c1
  let c3 := replaceChars "<SIL>".data [] c2
  let c4 := replaceChars "<NOISE>".data [] c3
  let c5 := replaceChars "</s>".data [] c4
  let c6 := replaceChars "<s>".data [] c5
  let c7 := replaceChars "[NOISE]".data [] c6
  let c8 := replaceChars "[SILENCE]".data [] c7
  let c9 := replaceChars "[UNKNOWN]".data [] c8
  stripDelimited '[' ']' (stripDelimited '<' '>' c9)

attribute [irreducible] cleanTranscriptText

/-- The trailing-punctuation set of `format_transcript_line`. -/
def punctuationEnd (c : Char) : Bool :=
  c == '.' || c == '!' || c == '?' || c == ':' || c == ';' || c == ','

/-- `format_transcript_line`: trim, capitalise a lowercase first character
(`char::to_uppercase` at ASCII precision), and append a period when the last
character is not punctuation. -/
def formatTranscriptLine (text : List Char) : List Char :=
  let trimmed := trimChars text
  if trimmed = [] then []
  else
    let capitalized :=
      match trimmed with
      | [] => []
      | c :: rest => if c.isLower then c.toUpper :: rest else c :: rest
    let lastChar := capitalized.getLast?.getD ' '
    if punctuationEnd lastChar then capitalized else capitalized ++ ['.']

/-- A transcription token.  The JSON `speaker` field (an integer, or a string
of digits parsed to one) is modelled as the already-extracted optional
integer; a missing or unparseable field is `none`. -/
structure Token where
  text : List Char
  isFinal : Bool
  speaker : Option Int
  language : Option (List Char)
deriving DecidableEq, Repr

/-- `extract_speaker_id`: the token's own id when present, otherwise the
fallback, otherwise `0`. -/
def extractSpeakerId (raw : Option Int) (fallback : Option Int) : Int :=
  match raw with
  | some id => id
  | none => fallback.getD 0

/-- Keyed lookup in an association-list map. -/
def alookup : List (Int × List Char) → Int → Option (List Char)
  | [], _ => none
  | (k, v) :: rest, k' => if k = k' then some v else alookup rest k'

/-- `map.entry(k).or_default().push_str(v)`. -/
def appendEntry : List (Int × List Char) → Int → List Char → List (Int × List Char)
  | [], k, v => [(k, v)]
  | (k0, v0) :: rest, k, v =>
      if k0 = k then (k0, v0 ++ v) :: rest else (k0, v0) :: appendEntry rest k v

/-- `map.entry(k).or_insert(v)`. -/
def insertIfAbsent : List (Int × List Char) → Int → List Char → List (Int × List Char)
  | [], k, v => [(k, v)]
  | (k0, v0) :: rest, k, v =>
      if k0 = k then (k0, v0) :: rest else (k0, v0) :: insertIfAbsent rest k v

/-- The accumulator of `render_tokens`: speaker first-seen order, per-speaker
text and language maps, and the last final speaker seen. -/
structure RenderAcc where
  order : List Int
  text : List (Int × List Char)
  lang : List (Int × List Char)
  lastSpeakerSeen : Option Int
deriving DecidableEq, Repr

/-- The empty accumulator at the top of `render_tokens`. -/
def emptyRenderAcc : RenderAcc := { order := [], text := [], lang := [], lastSpeakerSeen := none }

/-- One iteration of the final-token loop of `render_tokens`. -/
def finalStep (acc : RenderAcc) (t : Token) : RenderAcc :=
  let raw := cleanTranscriptText t.text
  if trimChars raw = [] then acc
  else
    let speaker := extractSpeakerId t.speaker none
    let language := t.language.getD "?".data
    { order := if speaker ∈ acc.order then acc.order else acc.order ++ [speaker],
      text := appendEntry acc.text speaker raw,
      lang := insertIfAbsent acc.lang speaker language,
      lastSpeakerSeen := some speaker }

/-- One iteration of the non-final-token loop of `render_tokens` (the
fallback speaker is the accumulator's `last_speaker_seen`, which this loop
never modifies). -/
def nonFinalStep (acc : RenderAcc) (t : Token) : RenderAcc :=
  let clean := cleanTranscriptText t.text
  if trimChars clean = [] then acc
  else
    let speaker := extractSpeakerId t.speaker acc.lastSpeakerSeen
    { acc with
      order := if speaker ∈ acc.order then acc.order else acc.order ++ [speaker],
      text := appendEntry acc.text speaker clean }

/-- `"Speaker {id}:"` for positive ids, `"Speaker:"` otherwise. -/
def speakerLabel (s : Int) : List Char :=
  if 0 < s then "Speaker ".data ++ (toString s).data ++ ":".data else "Speaker:".data

/-- The separator line appended after a non-empty rendering. -/
def separatorChars : List Char := "===============================".data

/-- The line rendered for one speaker of the output loop, when any
(`None` models the loop's `continue`s). -/
def renderLineFor (acc : RenderAcc) (speaker : Int) : Option (List Char) :=
  match alookup acc.text speaker with
  | none => none
  | some text =>
      let formatted := formatTranscriptLine text
      if formatted = [] then none
      else
        some (speakerLabel speaker ++ " [".data ++ ((alookup acc.lang speaker).getD "?".data)
          ++ "] ".data ++ formatted)

/-- The output loop of `render_tokens`: newline-join the rendered speaker
lines in `speaker_order`. -/
def renderResult (acc : RenderAcc) : List Char :=
  acc.order.foldl (fun result speaker =>
    match renderLineFor acc speaker with
    | none => result
    | some line => if result = [] then line else result ++ '\n' :: line) []

/-- `soniox::render_tokens`. -/
def renderTokens (finalTokens nonFinalTokens : List Token) : List Char :=
  let acc2 := nonFinalTokens.foldl nonFinalStep (finalTokens.foldl finalStep emptyRenderAcc)
  let result := renderResult acc2
  if result = [] then result else result ++ '\n' :: separatorChars

/-! ### A rendering written from the specification's words

The following definitions restate the rendering contract: speakers appear in
first-appearance order among (qualifying) final tokens, followed by new
speakers from the non-final overlay; each speaker's line carries the
accumulated final text immediately followed by the non-final overlay. -/

/-- A token contributes exactly when its cleaned text is non-blank. -/
def tokenQualifies (t : Token) : Bool := !(trimChars (cleanTranscriptText t.text)).isEmpty

/-- Resolved speaker of a final token (no fallback: absent ids become 0). -/
def finalSpeakerOf (t : Token) : Int := extractSpeakerId t.speaker none

/-- The last contributing final token's speaker. -/
def lastFinalSpeaker : List Token → Option Int
  | [] => none
  | t :: ts =>
      (lastFinalSpeaker ts).or (if tokenQualifies t then some (finalSpeakerOf t) else none)

/-- Resolved speakers of the contributing final tokens, in order. -/
def finalSpeakersSeq : List Token → List Int
  | [] => []
  | t :: ts =>
      if tokenQualifies t then finalSpeakerOf t :: finalSpeakersSeq ts else finalSpeakersSeq ts

/-- Resolved speakers of the contributing non-final tokens, in order, under a
fixed fallback speaker. -/
def nonFinalSpeakersSeq (fb : Option Int) : List Token → List Int
  | [] => []
  | t :: ts =>
      if tokenQualifies t then extractSpeakerId t.speaker fb :: nonFinalSpeakersSeq fb ts
      else nonFinalSpeakersSeq fb ts

/-- First-appearance subsequence: the distinct entries not already `seen`, in
order of first appearance. -/
def firstSeenFrom (seen : List Int) : List Int → List Int
  | [] => []
  | s :: rest =>
      if s ∈ seen then firstSeenFrom seen rest else s :: firstSeenFrom (seen ++ [s]) rest

/-- Speakers of the rendered transcript: first-appearance order among final
tokens, then first-appearance order of the remaining non-final speakers. -/
def specOrder (finals nons : List Token) : List Int :=
  let fs := firstSeenFrom [] (finalSpeakersSeq finals)
  fs ++ firstSeenFrom fs (nonFinalSpeakersSeq (lastFinalSpeaker finals) nons)

/-- A speaker's accumulated final text: the concatenated cleaned texts of the
speaker's contributing final tokens, in order. -/
def specFinalText (s : Int) : List Token → List Char
  | [] => []
  | t :: ts =>
      if tokenQualifies t ∧ finalSpeakerOf t = s then
        cleanTranscriptText t.text ++ specFinalText s ts
      else specFinalText s ts

/-- A speaker's current non-final overlay, under a fixed fallback speaker. -/
def specNonFinalText (fb : Option Int) (s : Int) : List Token → List Char
  | [] => []
  | t :: ts =>
      if tokenQualifies t ∧ extractSpeakerId t.speaker fb = s then
        cleanTranscriptText t.text ++ specNonFinalText fb s ts
      else specNonFinalText fb s ts

/-- A speaker's language: the first contributing final token's language. -/
def specLangOf (s : Int) : List Token → Option (List Char)
  | [] => none
  | t :: ts =>
      if tokenQualifies t ∧ finalSpeakerOf t = s then some (t.language.getD "?".data)
      else specLangOf s ts

/-- The rendered line of one speaker, per the specified format
`"Speaker <id>: [<language>] <capitalized, punctuated text>"`. -/
def specLine (finals nons : List Token) (s : Int) : List Char :=
  speakerLabel s ++ " [".data ++ ((specLangOf s finals).getD "?".data) ++ "] ".data
    ++ formatTranscriptLine (specFinalText s finals
        ++ specNonFinalText (lastFinalSpeaker finals) s nons)

/-- Newline-joined lines. -/
def joinLines : List (List Char) → List Char
  | [] => []
  | [x] => x
  | x :: y :: rest => x ++ '\n' :: joinLines (y :: rest)

/-- The continuation lines of a newline-join: each is preceded by a
newline. -/
def joinTail : List (List Char) → List Char
  | [] => []
  | l :: rest => '\n' :: (l ++ joinTail rest)

/-- The rendering described by the specification: speaker lines in
`specOrder` joined by newlines, with the trailing separator line exactly when
anything was rendered. -/
def renderTokensSpec (finals nons : List Token) : List Char :=
  let lines := (specOrder finals nons).map (specLine finals nons)
  if lines = [] then [] else joinLines lines ++ '\n' :: separatorChars

/-! ## Inbound message handling (`start_session` in soniox.rs)

State of one session's receive loop, and the handling of one well-formed
inbound message carrying a `tokens` array (messages with a top-level error
code terminate the session before this logic runs). -/

/-- The per-session rendering state of the receive loop. -/
structure SonioxSession where
  finalTokens : List Token
  lastEmittedText : List Char
  suppressRepeat : Option (List Char)
deriving DecidableEq, Repr

/-- Loop state at session start. -/
def initialSession : SonioxSession :=
  { finalTokens := [], lastEmittedText := [], suppressRepeat := none }

/-- The `"[no speech detected]"` placeholder payload. -/
def noSpeechPlaceholder : List Char := "[no speech detected]".data

/-- Handling of one inbound `tokens` message: tokens with empty raw text are
skipped; final tokens are appended to the permanent accumulation; the
remainder form the non-final overlay; the rendered string is emitted unless a
pending clear-suppression matches it, and the placeholder is emitted when the
message had no non-empty token and the rendering is empty.  The second
component is the emitted `soniox-transcript` payload (`none` when the
suppression skips the emission). -/
def handleTranscriptMessage (st : SonioxSession) (tokens : List Token) :
    SonioxSession × Option (List Char) :=
  let kept := tokens.filter (fun t => !t.text.isEmpty)
  let newFinals := st.finalTokens ++ kept.filter (fun t => t.isFinal)
  let nonFinal := kept.filter (fun t => !t.isFinal)
  let hasTokens := tokens.any (fun t => !t.text.isEmpty)
  let text := renderTokens newFinals nonFinal
  if hasTokens || !text.isEmpty then
    match st.suppressRepeat with
    | some s =>
        if s = text then ({ st with finalTokens := newFinals }, none)
        else
          ({ finalTokens := newFinals, lastEmittedText := text, suppressRepeat := none },
            some text)
    | none =>
        ({ finalTokens := newFinals, lastEmittedText := text, suppressRepeat := none },
          some text)
  else
    ({ st with finalTokens := newFinals, lastEmittedText := noSpeechPlaceholder },
      some noSpeechPlaceholder)

/-! ## Theorems: recording state machine -/

/-- C1: every recording command first validates that the current
`RecordingState` equals the expected source state and fails with the explicit
invalid-transition error otherwise, leaving the state unchanged; `Start` from
`Idle` succeeds and yields `Recording`, and a second `Start` while
`Recording` errors without mutating the state. -/
theorem recording_command_state_validation
    (app : App) (src dst : RecordingState) (now : Nat)
    (path fmt quality : String) (t e : Nat) :
    (app.currentState ≠ src →
      transitionState app src dst now = (.error invalidTransitionMsg, app))
    ∧ (app.currentState ≠ .idle →
      handleStart app path fmt quality now = (.error cannotStartMsg, app))
    ∧ (app.currentState = .idle →
      (handleStart app path fmt quality now).1 = .ok ("Started recording to: " ++ path)
        ∧ (handleStart app path fmt quality now).2.currentState = .recording now 0)
    ∧ (app.currentState = .recording t e →
      handleStart app path fmt quality now = (.error cannotStartMsg, app))
    ∧ ((∀ t' e', app.currentState ≠ .recording t' e') →
      handlePause app now = (.error cannotPauseMsg, app))
    ∧ ((∀ t' e', app.currentState ≠ .paused t' e') →
      handleResume app now = (.error cannotResumeMsg, app))
    ∧ ((∀ t' e', app.currentState ≠ .recording t' e' ∧ app.currentState ≠ .paused t' e') →
      handleStop app now = (.error cannotStopMsg, app)) := by
  refine ⟨?_, ?_, ?_, ?_, ?_, ?_, ?_⟩
  · intro h
    simp [transitionState, h]
  · intro h
    simp [handleStart, h]
  · intro h
    constructor <;> simp [handleStart, transitionState, h]
  · intro h
    simp [handleStart, h]
  · intro h
    cases hc : app.currentState with
    | recording t' e' => exact absurd hc (h t' e')
    | idle => simp [handlePause, hc]
    | starting => simp [handlePause, hc]
    | paused t' e' => simp [handlePause, hc]
    | resuming => simp [handlePause, hc]
    | stopping => simp [handlePause, hc]
  · intro h
    cases hc : app.currentState with
    | paused t' e' => exact absurd hc (h t' e')
    | idle => simp [handleResume, hc]
    | starting => simp [handleResume, hc]
    | recording t' e' => simp [handleResume, hc]
    | resuming => simp [handleResume, hc]
    | stopping => simp [handleResume, hc]
  · intro h
    cases hc : app.currentState with
    | recording t' e' => exact absurd hc (h t' e').1
    | paused t' e' => exact absurd hc (h t' e').2
    | idle => simp [handleStop, hc]
    | starting => simp [handleStop, hc]
    | resuming => simp [handleStop, hc]
    | stopping => simp [handleStop, hc]

theorem recording_command_state_validation_witness :
    initialApp.currentState = RecordingState.idle
    ∧ (handleStart initialApp "out.wav" "wav" "high" 5).1
        = .ok ("Started recording to: " ++ "out.wav")
    ∧ (handleStart initialApp "out.wav" "wav" "high" 5).2.currentState
        = RecordingState.recording 5 0 := by
  refine ⟨rfl, ?_, ?_⟩
  · exact ((recording_command_state_validation initialApp .idle .idle 5
      "out.wav" "wav" "high" 0 0).2.2.1 rfl).1
  · exact ((recording_command_state_validation initialApp .idle .idle 5
      "out.wav" "wav" "high" 0 0).2.2.1 rfl).2

/-- C2 (code behaviour at the concrete failing run): start at instant 0,
pause at instant 3, resume at instant 10.  The resume handler sets
`total_elapsed` to `start_time.elapsed()` — the full 10 ms of wall time since
the segment started, including the 7 ms paused gap — instead of adding the
just-ended 3 ms active interval to the previously accumulated total (which
would give 3 ms). -/
theorem resume_total_elapsed_at_failing_input :
    ((handleResume (handlePause
        (handleStart initialApp "out.wav" "wav" "high" 0).2 3).2 10).2.session.map
      RecordingSession.totalElapsed) = some 10
    ∧ ((handleResume (handlePause
        (handleStart initialApp "out.wav" "wav" "high" 0).2 3).2 10).2.session.map
      RecordingSession.totalElapsed) ≠ some (0 + (3 - 0)) := by
  constructor
  · rfl
  · decide

/-- C9: after a successful Pause, the writing-enabled flag is cleared while
the session and the transcription channel are untouched; the capture callback
still computes the same level telemetry and still forwards the chunk to the
transcription channel, and persists no sample. -/
theorem pause_preserves_capture_and_stream
    (app : App) (now t e : Nat) (s : RecordingSession) (b : Bool) (data : List ℚ)
    (channels sampleRate : Nat)
    (hst : app.currentState = .recording t e) (hses : app.session = some s) :
    (handlePause app now).1 = .ok "Recording paused"
    ∧ (handlePause app now).2.writingEnabled = false
    ∧ (handlePause app now).2.session = app.session
    ∧ (handlePause app now).2.sonioxOpen = app.sonioxOpen
    ∧ (callbackF32 false b data channels sampleRate).level
        = (callbackF32 true b data channels sampleRate).level
    ∧ (callbackF32 false b data channels sampleRate).written = []
    ∧ (callbackF32 false b data channels sampleRate).sent
        = (callbackF32 true b data channels sampleRate).sent
    ∧ (b = true → (callbackF32 false b data channels sampleRate).sent
        = some { samples := data.map f32ToI16, channels := channels,
                 sampleRate := sampleRate }) := by
  refine ⟨?_, ?_, ?_, ?_, rfl, rfl, rfl, ?_⟩
  · simp [handlePause, hst, transitionState, hses]
  · simp [handlePause, hst, transitionState, hses]
  · simp [handlePause, hst, transitionState, hses]
  · simp [handlePause, hst, transitionState, hses]
  · intro hb
    simp [callbackF32, hb]

theorem pause_preserves_capture_and_stream_witness :
    ((handleStart initialApp "o" "wav" "high" 0).2.currentState
        = RecordingState.recording 0 0)
    ∧ (handlePause (handleStart initialApp "o" "wav" "high" 0).2 7).1
        = .ok "Recording paused"
    ∧ (handlePause (handleStart initialApp "o" "wav" "high" 0).2 7).2.writingEnabled
        = false := by
  have h := pause_preserves_capture_and_stream
    (handleStart initialApp "o" "wav" "high" 0).2 7 0 0
    { config := { path := "o", format := "wav", quality := "high" },
      startTime := 0, totalElapsed := 0, state := .starting }
    true [] 1 48000 (by rfl) (by rfl)
  exact ⟨rfl, h.1, h.2.1⟩

/-! ## Theorems: MP3 segment writer and codec binding -/

theorem writeSample_eq (w : Mp3Writer) (s : Int) :
    writeSample w s =
      if 1152 * w.channels ≤ w.buffer.length + 1
      then flushMp3Buffer { w with buffer := w.buffer ++ [s] }
      else { w with buffer := w.buffer ++ [s] } := by
  simp [writeSample, List.length_append]

theorem writeSample_trigger (w : Mp3Writer) (s : Int)
    (h : w.buffer.length + 1 = 1152 * w.channels) :
    (writeSample w s).buffer = []
    ∧ (writeSample w s).encodeCalls.length = w.encodeCalls.length + 1 := by
  rw [writeSample_eq, if_pos (le_of_eq h.symm)]
  simp [flushMp3Buffer]

theorem writeSample_no_trigger (w : Mp3Writer) (s : Int)
    (h : w.buffer.length + 1 < 1152 * w.channels) :
    writeSample w s = { w with buffer := w.buffer ++ [s] } := by
  rw [writeSample_eq, if_neg (by omega)]

theorem writeSamples_below_frame (samples : List Int) :
    ∀ w : Mp3Writer, w.buffer.length + samples.length < 1152 * w.channels →
      writeSamples w samples = { w with buffer := w.buffer ++ samples } := by
  induction samples with
  | nil => intro w _; simp [writeSamples]
  | cons s ss ih =>
      intro w h
      simp only [List.length_cons] at h
      have hstep : writeSample w s = { w with buffer := w.buffer ++ [s] } :=
        writeSample_no_trigger w s (by omega)
      have hrec := ih { w with buffer := w.buffer ++ [s] } (by
        simp only [List.length_append, List.length_cons, List.length_nil]
        omega)
      calc writeSamples w (s :: ss)
          = writeSamples (writeSample w s) ss := rfl
        _ = writeSamples { w with buffer := w.buffer ++ [s] } ss := by rw [hstep]
        _ = { w with buffer := (w.buffer ++ [s]) ++ ss } := hrec
        _ = { w with buffer := w.buffer ++ s :: ss } := by simp

/-- C5: the compressed writer appends each sample and invokes the encoder
exactly when the buffer reaches `1152 * channels`, clearing the buffer; a
fresh writer fed exactly `1152 * channels` samples performs no encode on any
proper prefix and exactly one in total; finalize on an empty buffer performs
no main-path encode and exactly one flush-path call. -/
theorem mp3_frame_chunking
    (c : Nat) (w : Mp3Writer) (s : Int) (samples : List Int) (n : Nat) (w' : Mp3Writer)
    (hc : 1 ≤ c) (hwc : w.channels = c) (hinv : w.buffer.length < 1152 * c)
    (hlen : samples.length = 1152 * c) (hn : n < samples.length)
    (hemp : w'.buffer = []) :
    ((writeSample w s).buffer
        = if w.buffer.length + 1 = 1152 * c then [] else w.buffer ++ [s])
    ∧ ((writeSample w s).encodeCalls.length
        = w.encodeCalls.length + (if w.buffer.length + 1 = 1152 * c then 1 else 0))
    ∧ (writeSamples (freshMp3Writer c) (samples.take n)).encodeCalls = []
    ∧ (writeSamples (freshMp3Writer c) samples).encodeCalls.length = 1
    ∧ (writeSamples (freshMp3Writer c) samples).buffer = []
    ∧ (finalizeWriter w').encodeCalls = w'.encodeCalls
    ∧ (finalizeWriter w').flushCalls = w'.flushCalls + 1 := by
  have hfresh : ∀ m : List Int, m.length < 1152 * c →
      writeSamples (freshMp3Writer c) m = { freshMp3Writer c with buffer := m } := by
    intro m hm
    have := writeSamples_below_frame m (freshMp3Writer c) (by simpa [freshMp3Writer] using hm)
    simpa [freshMp3Writer] using this
  have hne : samples ≠ [] := by
    intro hnil
    rw [hnil] at hlen
    simp at hlen
    omega
  have hsplit := List.dropLast_concat_getLast hne
  have hdrop : samples.dropLast.length = 1152 * c - 1 := by
    simp [List.length_dropLast, hlen]
  refine ⟨?_, ?_, ?_, ?_, ?_, ?_, ?_⟩
  · by_cases hfull : w.buffer.length + 1 = 1152 * c
    · rw [if_pos hfull]
      exact (writeSample_trigger w s (by rw [hwc]; exact hfull)).1
    · rw [if_neg hfull, writeSample_no_trigger w s (by rw [hwc]; omega)]
  · by_cases hfull : w.buffer.length + 1 = 1152 * c
    · rw [if_pos hfull]
      exact (writeSample_trigger w s (by rw [hwc]; exact hfull)).2
    · rw [if_neg hfull, writeSample_no_trigger w s (by rw [hwc]; omega)]
      simp
  · rw [hfresh (samples.take n) (by
      rw [List.length_take]
      omega)]
    simp [freshMp3Writer]
  · conv_lhs => rw [← hsplit]
    rw [writeSamples, List.foldl_concat, ← writeSamples,
      hfresh samples.dropLast (by omega)]
    exact (writeSample_trigger _ _ (by simp [freshMp3Writer, hdrop]; omega)).2
  · conv_lhs => rw [← hsplit]
    rw [writeSamples, List.foldl_concat, ← writeSamples,
      hfresh samples.dropLast (by omega)]
    exact (writeSample_trigger _ _ (by simp [freshMp3Writer, hdrop]; omega)).1
  · simp [finalizeWriter, flushMp3Buffer, hemp]
  · simp [finalizeWriter, flushMp3Buffer, hemp]

theorem mp3_frame_chunking_witness :
    (List.replicate 1152 (0 : Int)).length = 1152 * 1
    ∧ (writeSamples (freshMp3Writer 1) (List.replicate 1152 (0 : Int))).encodeCalls.length = 1
    ∧ (finalizeWriter (freshMp3Writer 1)).flushCalls = 1 := by
  have hrep : (List.replicate 1152 (0 : Int)).length = 1152 * 1 := by
    rw [List.length_replicate]
  have h := mp3_frame_chunking 1 (freshMp3Writer 1) 0 (List.replicate 1152 (0 : Int)) 0
    (freshMp3Writer 1) (by omega) rfl (by simp [freshMp3Writer]) hrep
    (by rw [hrep]; omega) rfl
  exact ⟨hrep, h.2.2.2.1, h.2.2.2.2.2.2⟩

theorem splitStereo_length (l : List Int) :
    (splitStereo l).1.length = (l.length + 1) / 2
    ∧ (splitStereo l).2.length = (l.length + 1) / 2 := by
  induction l using splitStereo.induct with
  | case1 => simp [splitStereo]
  | case2 a => simp [splitStereo]
  | case3 a b rest ih =>
      simp only [splitStereo, List.length_cons, ih.1, ih.2]
      omega

theorem splitChannels_length_eq (b : List Int) (ch : Nat) :
    (splitChannels b ch).1.length = (splitChannels b ch).2.length := by
  unfold splitChannels
  split
  · rfl
  · rw [(splitStereo_length b).1, (splitStereo_length b).2]

theorem splitChannels_left_le (b : List Int) (ch : Nat) (h : b ≠ []) :
    (splitChannels b ch).1.length ≤ b.length := by
  unfold splitChannels
  split
  · exact le_rfl
  · rw [(splitStereo_length b).1]
    have : 1 ≤ b.length := List.length_pos.mpr h
    omega

theorem encodePanics_false_of (l r : List Int) (m : Nat)
    (h1 : l.length = r.length) (h2 : l.length ≤ cIntMax) (h3 : m ≤ cIntMax) :
    encodePanics l r m = false := by
  have h2' : r.length ≤ cIntMax := h1 ▸ h2
  simp [encodePanics, h1, Nat.not_lt.mpr h2, Nat.not_lt.mpr h2', Nat.not_lt.mpr h3]

theorem flushMp3Buffer_calls_good (w : Mp3Writer)
    (hch : 1 ≤ w.channels) (hch2 : w.channels ≤ 65535)
    (hlen : w.buffer.length ≤ 1152 * w.channels) :
    ∀ call ∈ (flushMp3Buffer w).encodeCalls,
      call ∈ w.encodeCalls
      ∨ (call.left.length = call.right.length
          ∧ call.left.length ≤ cIntMax ∧ call.mp3Len ≤ cIntMax) := by
  intro call hcall
  unfold flushMp3Buffer at hcall
  split at hcall
  · exact Or.inl hcall
  · rename_i hne
    simp only [List.mem_append, List.mem_singleton] at hcall
    rcases hcall with h | h
    · exact Or.inl h
    · right
      subst h
      have hl : (splitChannels w.buffer w.channels).1.length ≤ 1152 * 65535 :=
        le_trans (le_trans (splitChannels_left_le _ _ hne) hlen)
          (by have := hch2; omega)
      refine ⟨splitChannels_length_eq _ _, le_trans hl (by norm_num [cIntMax]), ?_⟩
      have h5 : (splitChannels w.buffer w.channels).1.length * 5 / 4
          ≤ (splitChannels w.buffer w.channels).1.length * 5 := Nat.div_le_self _ _
      simp only [mp3OutLen, cIntMax]
      have : (splitChannels w.buffer w.channels).1.length * 5 ≤ 1152 * 65535 * 5 := by
        omega
      omega

theorem writeSamples_calls_good (c : Nat) (hc : 1 ≤ c) (hc2 : c ≤ 65535)
    (samples : List Int) :
    ∀ w : Mp3Writer, w.channels = c → w.buffer.length < 1152 * c →
      (∀ call ∈ w.encodeCalls, call.left.length = call.right.length
        ∧ call.left.length ≤ cIntMax ∧ call.mp3Len ≤ cIntMax) →
      (writeSamples w samples).channels = c
      ∧ (writeSamples w samples).buffer.length < 1152 * c
      ∧ ∀ call ∈ (writeSamples w samples).encodeCalls,
          call.left.length = call.right.length
          ∧ call.left.length ≤ cIntMax ∧ call.mp3Len ≤ cIntMax := by
  induction samples with
  | nil => intro w hwc hwlen hgood; exact ⟨hwc, hwlen, hgood⟩
  | cons s ss ih =>
      intro w hwc hwlen hgood
      have hstep : (writeSample w s).channels = c
          ∧ (writeSample w s).buffer.length < 1152 * c
          ∧ ∀ call ∈ (writeSample w s).encodeCalls,
              call.left.length = call.right.length
              ∧ call.left.length ≤ cIntMax ∧ call.mp3Len ≤ cIntMax := by
        rw [writeSample_eq]
        split
        · rename_i hcond
          have hfl := flushMp3Buffer_calls_good { w with buffer := w.buffer ++ [s] }
            (by simpa [hwc] using hc) (by simpa [hwc] using hc2)
            (by simp [hwc, List.length_append]; omega)
          refine ⟨?_, ?_, ?_⟩
          · simp [flushMp3Buffer, hwc]
          · simp [flushMp3Buffer]
            omega
          · intro call hcall
            rcases hfl call hcall with h | h
            · exact hgood call (by simpa using h)
            · exact h
        · refine ⟨by simp [hwc], ?_, by simpa using hgood⟩
          rename_i hcond
          simp only [List.length_append, List.length_cons, List.length_nil]
          rw [hwc] at hcond
          omega
      exact ih (writeSample w s) hstep.1 hstep.2.1 hstep.2.2

/-- C6 (amended): `Lame::encode` panics exactly when the channel buffers have
unequal lengths or a buffer length exceeds `c_int::MAX`; the flush path
always constructs equal-length left/right channel vectors; and every encode
invocation reachable from `write_sample`/`finalize` on a writer with a
real channel count (1..=65535) has equal-length, in-bounds arguments, so the
abort is unreachable from the writer. -/
theorem encode_abort_unreachable
    (c : Nat) (samples b pcmLeft pcmRight : List Int) (mLen ch : Nat) (call : EncodeCall)
    (hc : 1 ≤ c) (hc2 : c ≤ 65535) :
    (encodePanics pcmLeft pcmRight mLen = true ↔
      (pcmLeft.length ≠ pcmRight.length ∨ cIntMax < pcmLeft.length ∨ cIntMax < mLen))
    ∧ (splitChannels b ch).1.length = (splitChannels b ch).2.length
    ∧ (call ∈ (finalizeWriter (writeSamples (freshMp3Writer c) samples)).encodeCalls →
        encodePanics call.left call.right call.mp3Len = false) := by
  refine ⟨?_, splitChannels_length_eq b ch, ?_⟩
  · simp [encodePanics, or_assoc]
  · intro hcall
    have hrun := writeSamples_calls_good c hc hc2 samples (freshMp3Writer c) rfl
      (by simp [freshMp3Writer]; omega) (by simp [freshMp3Writer])
    have hfin := flushMp3Buffer_calls_good (writeSamples (freshMp3Writer c) samples)
      (by rw [hrun.1]; exact hc) (by rw [hrun.1]; exact hc2)
      (by rw [hrun.1]; exact le_of_lt hrun.2.1)
    have hcall' : call ∈ (flushMp3Buffer (writeSamples (freshMp3Writer c) samples)).encodeCalls := by
      simpa [finalizeWriter] using hcall
    rcases hfin call hcall' with h | h
    · have hg := hrun.2.2 call h
      exact encodePanics_false_of _ _ _ hg.1 hg.2.1 hg.2.2
    · exact encodePanics_false_of _ _ _ h.1 h.2.1 h.2.2

theorem encode_abort_unreachable_witness :
    (1 ≤ 1 ∧ (1 : Nat) ≤ 65535)
    ∧ (encodePanics [] [] 0 = true ↔
        (([] : List Int).length ≠ ([] : List Int).length
          ∨ cIntMax < ([] : List Int).length ∨ cIntMax < 0)) := by
  refine ⟨⟨le_rfl, by omega⟩, ?_⟩
  exact (encode_abort_unreachable 1 [] [] [] [] 0 1 ⟨[], [], 0⟩ le_rfl (by omega)).1

/-- C6 counterexample to the claim as stated: two channel buffers of equal
length `2147483648` (exceeding `c_int::MAX`) still make `Lame::encode` panic,
via `int_size`, so the abort is not exactly the unequal-length case. -/
theorem encode_abort_counterexample :
    (List.replicate 2147483648 (0 : Int)).length
      = (List.replicate 2147483648 (0 : Int)).length
    ∧ encodePanics (List.replicate 2147483648 (0 : Int))
        (List.replicate 2147483648 (0 : Int)) 0 = true := by
  refine ⟨rfl, ?_⟩
  have hlen : (List.replicate 2147483648 (0 : Int)).length = 2147483648 :=
    List.length_replicate _ _
  unfold encodePanics
  rw [hlen]
  decide

/-! ## Theorems: wire conversion -/

theorem chunksOf_mem (n : Nat) :
    ∀ (l ch : List Int), ch ∈ chunksOf n l → ch.length ≤ max n 1 ∧ ∀ x ∈ ch, x ∈ l := by
  intro l
  induction l using chunksOf.induct n with
  | case1 =>
      intro ch hch
      simp [chunksOf] at hch
  | case2 x xs ih =>
      intro ch hch
      rw [chunksOf] at hch
      rcases List.mem_cons.mp hch with h | h
      · subst h
        constructor
        · rw [List.length_take]
          omega
        · intro y hy
          exact List.mem_of_mem_take hy
      · have := ih ch h
        exact ⟨this.1, fun y hy => List.mem_cons_of_mem x (List.mem_of_mem_drop (this.2 y hy))⟩

theorem foldl_add_bound (l : List Int) :
    ∀ a : Int, (∀ x ∈ l, -32768 ≤ x ∧ x ≤ 32767) →
      a - 32768 * l.length ≤ l.foldl (· + ·) a ∧ l.foldl (· + ·) a ≤ a + 32767 * l.length := by
  induction l with
  | nil => intro a _; simp
  | cons x xs ih =>
      intro a h
      have hx := h x (List.mem_cons_self x xs)
      have hrec := ih (a + x) (fun y hy => h y (List.mem_cons_of_mem x hy))
      simp only [List.foldl_cons, List.length_cons]
      constructor
      · refine le_trans ?_ hrec.1
        push_cast
        nlinarith [hx.1]
      · refine le_trans hrec.2 ?_
        push_cast
        nlinarith [hx.2]

theorem downmixChunks_ok (n : Nat) (chs : List (List Int))
    (h : ∀ ch ∈ chs, ch.length ≤ 65535 ∧ ∀ x ∈ ch, -32768 ≤ x ∧ x ≤ 32767) :
    ∃ res, downmixChunks n chs = .ok res := by
  induction chs with
  | nil => exact ⟨[], rfl⟩
  | cons ch rest ih =>
      have hch := h ch (List.mem_cons_self ch rest)
      have hsum := foldl_add_bound ch 0 hch.2
      have hlo : i32Min ≤ ch.foldl (· + ·) 0 := by
        refine le_trans ?_ hsum.1
        have : (ch.length : Int) ≤ 65535 := by exact_mod_cast hch.1
        simp only [i32Min]
        nlinarith
      have hhi : ch.foldl (· + ·) 0 ≤ i32Max := by
        refine le_trans hsum.2 ?_
        have : (ch.length : Int) ≤ 65535 := by exact_mod_cast hch.1
        simp only [i32Max]
        nlinarith
      obtain ⟨res, hres⟩ := ih (fun c hc => h c (List.mem_cons_of_mem ch hc))
      refine ⟨wrapI16 (Int.tdiv (ch.foldl (· + ·) 0) (n : Int)) :: res, ?_⟩
      rw [downmixChunks, if_neg (by omega), hres]

/-- C10: `to_pcm16_mono_16k` returns normally (no panic, no out-of-range
index) for every i16 sample slice, every channel count (0 and 1 included),
and every positive sample rate; an empty sample slice yields an empty byte
output. -/
theorem to_pcm_returns_normally (samples : List Int) (channels sampleRate : Nat)
    (hs : ∀ s ∈ samples, -32768 ≤ s ∧ s ≤ 32767)
    (hch : channels < 65536) (hsr : 1 ≤ sampleRate) :
    (∃ bs, to_pcm16_mono_16k samples channels sampleRate = .ok bs)
    ∧ to_pcm16_mono_16k [] channels sampleRate = .ok [] := by
  have hmono : ∃ mono, (if channels ≤ 1 then Except.ok samples
      else downmixChunks channels (chunksOf channels samples)) = .ok mono := by
    by_cases h1 : channels ≤ 1
    · exact ⟨samples, by rw [if_pos h1]⟩
    · obtain ⟨res, hres⟩ := downmixChunks_ok channels (chunksOf channels samples)
        (fun ch hchm => by
          have := chunksOf_mem channels samples ch hchm
          exact ⟨by omega, fun x hx => hs x (this.2 x hx)⟩)
      exact ⟨res, by rw [if_neg h1, hres]⟩
  constructor
  · obtain ⟨mono, hm⟩ := hmono
    unfold to_pcm16_mono_16k
    rw [hm]
    dsimp only
    by_cases h16 : sampleRate = 16000
    · rw [if_pos h16]
      exact ⟨_, rfl⟩
    · rw [if_neg h16]
      exact ⟨_, rfl⟩
  · unfold to_pcm16_mono_16k
    have hme : (if channels ≤ 1 then Except.ok ([] : List Int)
        else downmixChunks channels (chunksOf channels [])) = .ok [] := by
      by_cases h1 : channels ≤ 1
      · rw [if_pos h1]
      · rw [if_neg h1]
        simp [chunksOf, downmixChunks]
    rw [hme]
    dsimp only
    by_cases h16 : sampleRate = 16000
    · rw [if_pos h16]
      rfl
    · rw [if_neg h16]
      simp

theorem to_pcm_returns_normally_witness :
    (∃ bs, to_pcm16_mono_16k [1000, 3000] 2 16000 = .ok bs)
    ∧ to_pcm16_mono_16k [] 2 16000 = .ok [] :=
  to_pcm_returns_normally [1000, 3000] 2 16000 (by decide) (by omega) (by omega)

/-! ## Theorems: voice activity detector -/

theorem calibUpdate_frozen (st : VadState) (m : ChunkMeas) (h : st.calibLeftMs = 0) :
    calibUpdate st m = st := by
  unfold calibUpdate
  rw [if_neg (by omega)]

theorem calibUpdate_active (st : VadState) (m : ChunkMeas) (h : 0 < st.calibLeftMs) :
    (calibUpdate st m).calibLeftMs = st.calibLeftMs - m.chunkMs
    ∧ (calibUpdate st m).noiseEnergyAccum
        = st.noiseEnergyAccum + m.rms * ((min st.calibLeftMs m.chunkMs : ℕ) : ℚ)
    ∧ (calibUpdate st m).noiseTimeAccumMs
        = st.noiseTimeAccumMs + ((min st.calibLeftMs m.chunkMs : ℕ) : ℚ)
    ∧ (calibUpdate st m).noisePeakMax = max st.noisePeakMax m.peak
    ∧ (calibUpdate st m).thresholdEff
        = (if st.calibLeftMs - m.chunkMs = 0
              ∧ 0 < st.noiseTimeAccumMs + ((min st.calibLeftMs m.chunkMs : ℕ) : ℚ)
           then max st.thresholdEff (max (max
              (((st.noiseEnergyAccum + m.rms * ((min st.calibLeftMs m.chunkMs : ℕ) : ℚ))
                / (st.noiseTimeAccumMs + ((min st.calibLeftMs m.chunkMs : ℕ) : ℚ))) * 6)
              ((max st.noisePeakMax m.peak) * (6 / 10))) (1 / 100))
           else st.thresholdEff) := by
  unfold calibUpdate
  rw [if_pos h]
  exact ⟨rfl, rfl, rfl, rfl, rfl⟩

theorem calibUpdate_smoothed_set (st : VadState) (m : ChunkMeas) (x : ℚ) :
    calibUpdate { st with smoothed := x } m = { calibUpdate st m with smoothed := x } := by
  unfold calibUpdate
  cases st
  dsimp only
  split_ifs <;> rfl

theorem calibUpdate_cooldown (st : VadState) (m : ChunkMeas) :
    (calibUpdate st m).cooldownLeftMs = st.cooldownLeftMs := by
  unfold calibUpdate
  split_ifs <;> rfl

theorem vadStep_calib_fields (cfg : VadConfig) (st : VadState) (m : ChunkMeas) :
    (vadStep cfg st m).calibLeftMs = (calibUpdate st m).calibLeftMs
    ∧ (vadStep cfg st m).thresholdEff = (calibUpdate st m).thresholdEff
    ∧ (vadStep cfg st m).noiseEnergyAccum = (calibUpdate st m).noiseEnergyAccum
    ∧ (vadStep cfg st m).noiseTimeAccumMs = (calibUpdate st m).noiseTimeAccumMs
    ∧ (vadStep cfg st m).noisePeakMax = (calibUpdate st m).noisePeakMax := by
  unfold vadStep vadStepD
  dsimp only
  rw [calibUpdate_smoothed_set]
  split_ifs <;> exact ⟨rfl, rfl, rfl, rfl, rfl⟩

theorem vadStepD_detected (cfg : VadConfig) (st : VadState) (m : ChunkMeas) :
    (vadStepD cfg st m).2
      = ((cooldownDec st.cooldownLeftMs m.chunkMs == 0)
          && (decide ((calibUpdate st m).thresholdEff < smoothedUpdate st.smoothed m.rms)
            || decide ((calibUpdate st m).thresholdEff * (8 / 10) < m.peak))) := by
  unfold vadStepD
  dsimp only
  rw [calibUpdate_smoothed_set, calibUpdate_cooldown]

theorem vadRun_inv (cfg : VadConfig) (ms : List ChunkMeas) :
    ∀ st : VadState,
      (0 < st.calibLeftMs → st.thresholdEff = cfg.threshold) → 0 ≤ st.noiseTimeAccumMs →
      (0 < (ms.foldl (vadStep cfg) st).calibLeftMs →
        (ms.foldl (vadStep cfg) st).thresholdEff = cfg.threshold)
      ∧ 0 ≤ (ms.foldl (vadStep cfg) st).noiseTimeAccumMs := by
  induction ms with
  | nil => intro st h1 h2; exact ⟨h1, h2⟩
  | cons m rest ih =>
      intro st h1 h2
      have hf := vadStep_calib_fields cfg st m
      have step1 : 0 < (vadStep cfg st m).calibLeftMs →
          (vadStep cfg st m).thresholdEff = cfg.threshold := by
        intro hpos
        by_cases hz : 0 < st.calibLeftMs
        · have ha := calibUpdate_active st m hz
          rw [hf.2.1, ha.2.2.2.2, if_neg ?_]
          · exact h1 hz
          · rw [hf.1, ha.1] at hpos
            intro hc
            omega
        · rw [hf.1, calibUpdate_frozen st m (by omega)] at hpos
          exact absurd hpos hz
      have step2 : 0 ≤ (vadStep cfg st m).noiseTimeAccumMs := by
        by_cases hz : 0 < st.calibLeftMs
        · have ha := calibUpdate_active st m hz
          rw [hf.2.2.2.1, ha.2.2.1]
          positivity
        · rw [hf.2.2.2.1, calibUpdate_frozen st m (by omega)]
          exact h2
      exact ih (vadStep cfg st m) step1 step2

theorem vadRun_frozen (cfg : VadConfig) (more : List ChunkMeas) :
    ∀ st : VadState, st.calibLeftMs = 0 →
      (more.foldl (vadStep cfg) st).thresholdEff = st.thresholdEff
      ∧ (more.foldl (vadStep cfg) st).calibLeftMs = 0 := by
  induction more with
  | nil => intro st h; exact ⟨rfl, h⟩
  | cons m rest ih =>
      intro st h
      have hf := vadStep_calib_fields cfg st m
      have hfr := calibUpdate_frozen st m h
      have h1 : (vadStep cfg st m).thresholdEff = st.thresholdEff := by rw [hf.2.1, hfr]
      have h2 : (vadStep cfg st m).calibLeftMs = 0 := by rw [hf.1, hfr]; exact h
      have := ih (vadStep cfg st m) h2
      exact ⟨by rw [List.foldl_cons, this.1, h1], by rw [List.foldl_cons, this.2]⟩

/-- C3: the detector accumulates an energy-time integral and a running noise
peak during the 1000 ms calibration window; exactly when the window elapses
the effective threshold is set to
`max(user_threshold, 6 * avg_noise_energy, 0.6 * noise_peak, 0.01)`, and it
never changes afterwards. -/
theorem calibration_freezes_threshold
    (cfg : VadConfig) (ms more : List ChunkMeas) (m : ChunkMeas) :
    (vadInit cfg).calibLeftMs = 1000
    ∧ (vadInit cfg).thresholdEff = cfg.threshold
    ∧ (0 < (vadRun cfg ms).calibLeftMs → (vadRun cfg ms).thresholdEff = cfg.threshold)
    ∧ (0 < (vadRun cfg ms).calibLeftMs →
        (vadStep cfg (vadRun cfg ms) m).noiseEnergyAccum
          = (vadRun cfg ms).noiseEnergyAccum
            + m.rms * ((min (vadRun cfg ms).calibLeftMs m.chunkMs : ℕ) : ℚ)
        ∧ (vadStep cfg (vadRun cfg ms) m).noisePeakMax
          = max (vadRun cfg ms).noisePeakMax m.peak)
    ∧ (0 < (vadRun cfg ms).calibLeftMs → 0 < (vadStep cfg (vadRun cfg ms) m).calibLeftMs →
        (vadStep cfg (vadRun cfg ms) m).thresholdEff = cfg.threshold)
    ∧ (0 < (vadRun cfg ms).calibLeftMs → (vadStep cfg (vadRun cfg ms) m).calibLeftMs = 0 →
        (vadStep cfg (vadRun cfg ms) m).thresholdEff
          = max cfg.threshold (max (max
              ((((vadRun cfg ms).noiseEnergyAccum
                  + m.rms * ((min (vadRun cfg ms).calibLeftMs m.chunkMs : ℕ) : ℚ))
                / ((vadRun cfg ms).noiseTimeAccumMs
                  + ((min (vadRun cfg ms).calibLeftMs m.chunkMs : ℕ) : ℚ))) * 6)
              ((max (vadRun cfg ms).noisePeakMax m.peak) * (6 / 10))) (1 / 100)))
    ∧ ((vadRun cfg ms).calibLeftMs = 0 →
        (vadRun cfg (ms ++ more)).thresholdEff = (vadRun cfg ms).thresholdEff
        ∧ (vadRun cfg (ms ++ more)).calibLeftMs = 0) := by
  have hinv := vadRun_inv cfg ms (vadInit cfg) (fun _ => rfl) le_rfl
  have hf := vadStep_calib_fields cfg (vadRun cfg ms) m
  refine ⟨rfl, rfl, hinv.1, ?_, ?_, ?_, ?_⟩
  · intro hpos
    have ha := calibUpdate_active (vadRun cfg ms) m hpos
    exact ⟨by rw [hf.2.2.1, ha.2.1], by rw [hf.2.2.2.2, ha.2.2.2.1]⟩
  · intro hpos hpos'
    have ha := calibUpdate_active (vadRun cfg ms) m hpos
    rw [hf.2.1, ha.2.2.2.2, if_neg ?_]
    · exact hinv.1 hpos
    · rw [hf.1, ha.1] at hpos'
      intro hc
      omega
  · intro hpos hzero
    have ha := calibUpdate_active (vadRun cfg ms) m hpos
    rw [hf.1, ha.1] at hzero
    have hused : min (vadRun cfg ms).calibLeftMs m.chunkMs = (vadRun cfg ms).calibLeftMs := by
      omega
    have hT : 0 ≤ (vadRun cfg ms).noiseTimeAccumMs := hinv.2
    have hTpos : 0 < (vadRun cfg ms).noiseTimeAccumMs
        + ((min (vadRun cfg ms).calibLeftMs m.chunkMs : ℕ) : ℚ) := by
      have h0 : (0 : ℚ) < ((min (vadRun cfg ms).calibLeftMs m.chunkMs : ℕ) : ℚ) := by
        rw [hused]
        exact_mod_cast hpos
      linarith
    have hthr : (vadRun cfg ms).thresholdEff = cfg.threshold := hinv.1 hpos
    rw [hf.2.1, ha.2.2.2.2, if_pos ⟨hzero, hTpos⟩, hthr]
  · intro hzero
    have := vadRun_frozen cfg more (vadRun cfg ms) hzero
    constructor
    · rw [vadRun, List.foldl_append, ← vadRun, this.1]
    · rw [vadRun, List.foldl_append, ← vadRun, this.2]

theorem calibration_freezes_threshold_witness :
    0 < (vadRun { threshold := 3 / 100, minSpeechMs := 300, silenceMs := 800 } []).calibLeftMs
    ∧ (vadRun { threshold := 3 / 100, minSpeechMs := 300, silenceMs := 800 } []).thresholdEff
      = ({ threshold := 3 / 100, minSpeechMs := 300, silenceMs := 800 } : VadConfig).threshold := by
  constructor
  · show (0 : ℕ) < 1000
    omega
  · exact (calibration_freezes_threshold
      { threshold := 3 / 100, minSpeechMs := 300, silenceMs := 800 } [] []
      { rms := 0, peak := 0, chunkMs := 1000, zcr := 0 }).2.2.1 (by show (0 : ℕ) < 1000; omega)

/-- C4: per chunk the smoothed energy is updated as
`smoothed = 0.9 * smoothed + 0.1 * rms`; voice is detected exactly when the
(decremented) cooldown is zero and the updated smoothed energy exceeds the
effective threshold or the peak exceeds 0.8 times it; the zero-crossing rate,
although computed (`zcrOfChunk`), has no influence on the step. -/
theorem voice_detection_rule
    (cfg : VadConfig) (st : VadState) (m : ChunkMeas) (z : ℚ)
    (samples : List Int) (channels : Nat) :
    (vadStep cfg st m).smoothed = (9 / 10) * st.smoothed + (1 / 10) * m.rms
    ∧ ((vadStepD cfg st m).2 = true ↔
        (cooldownDec st.cooldownLeftMs m.chunkMs = 0
          ∧ ((calibUpdate st m).thresholdEff < smoothedUpdate st.smoothed m.rms
            ∨ (calibUpdate st m).thresholdEff * (8 / 10) < m.peak)))
    ∧ vadStepD cfg st { m with zcr := z } = vadStepD cfg st m
    ∧ vadStepD cfg st { m with zcr := zcrOfChunk samples channels ((m.chunkMs : ℕ) : ℚ) }
        = vadStepD cfg st m := by
  refine ⟨?_, ?_, ?_, ?_⟩
  · show (vadStepD cfg st m).1.smoothed = _
    unfold vadStepD
    dsimp only
    rw [calibUpdate_smoothed_set]
    split_ifs <;> rfl
  · rw [vadStepD_detected]
    simp [smoothedUpdate]
  · cases m
    rfl
  · cases m
    rfl

/-! ## Theorems: transcript rendering -/

theorem trimChars_eq_nil_iff (l : List Char) :
    trimChars l = [] ↔ ∀ c ∈ l, c.isWhitespace = true := by
  unfold trimChars
  rw [List.reverse_eq_nil_iff, List.dropWhile_eq_nil_iff]
  constructor
  · intro h c hc
    have hsplit := List.takeWhile_append_dropWhile Char.isWhitespace l
    rw [← hsplit] at hc
    rcases List.mem_append.mp hc with h1 | h1
    · exact List.mem_takeWhile_imp h1
    · exact h c (List.mem_reverse.mpr h1)
  · intro h c hc
    exact h c ((List.dropWhile_sublist _).subset (List.mem_reverse.mp hc))

theorem trimChars_append_ne (a b : List Char) (h : trimChars b ≠ []) :
    trimChars (a ++ b) ≠ [] := by
  intro hc
  apply h
  rw [trimChars_eq_nil_iff] at hc ⊢
  intro c hcb
  exact hc c (List.mem_append.mpr (Or.inr hcb))

theorem formatTranscriptLine_ne_nil (v : List Char) (h : trimChars v ≠ []) :
    formatTranscriptLine v ≠ [] := by
  unfold formatTranscriptLine
  rw [if_neg h]
  cases htv : trimChars v with
  | nil => exact absurd htv h
  | cons c rest =>
      dsimp only
      split_ifs <;> simp

theorem speakerLabel_ne_nil (s : Int) : speakerLabel s ≠ [] := by
  unfold speakerLabel
  split_ifs
  · exact List.append_ne_nil_of_left_ne_nil
      (List.append_ne_nil_of_left_ne_nil (by decide) _) _
  · decide

theorem alookup_appendEntry (mp : List (Int × List Char)) (k k' : Int) (v : List Char) :
    alookup (appendEntry mp k v) k'
      = if k = k' then some ((alookup mp k).getD [] ++ v) else alookup mp k' := by
  induction mp with
  | nil =>
      by_cases h : k = k' <;> simp [appendEntry, alookup, h]
  | cons p rest ih =>
      obtain ⟨k0, v0⟩ := p
      by_cases h0 : k0 = k
      · subst h0
        by_cases h : k0 = k' <;> simp [appendEntry, alookup, h]
      · by_cases h : k0 = k'
        · subst h
          have hkk : ¬ k = k0 := fun hh => h0 hh.symm
          simp [appendEntry, alookup, h0, hkk]
        · simp [appendEntry, alookup, h0, h, ih]

theorem alookup_insertIfAbsent (mp : List (Int × List Char)) (k k' : Int) (v : List Char) :
    alookup (insertIfAbsent mp k v) k'
      = (alookup mp k').or (if k = k' then some v else none) := by
  induction mp with
  | nil =>
      by_cases h : k = k' <;> simp [insertIfAbsent, alookup, h]
  | cons p rest ih =>
      obtain ⟨k0, v0⟩ := p
      by_cases h0 : k0 = k
      · subst h0
        by_cases h : k0 = k' <;> simp [insertIfAbsent, alookup, h]
      · by_cases h : k0 = k'
        · subst h
          simp [insertIfAbsent, alookup, h0]
        · simp [insertIfAbsent, alookup, h0, h, ih]

theorem foldl_finalStep_text (finals : List Token) :
    ∀ (acc : RenderAcc) (s : Int),
      (alookup (finals.foldl finalStep acc).text s).getD []
        = (alookup acc.text s).getD [] ++ specFinalText s finals := by
  induction finals with
  | nil => intro acc s; simp [specFinalText]
  | cons t ts ih =>
      intro acc s
      rw [List.foldl_cons]
      by_cases hq : trimChars (cleanTranscriptText t.text) = []
      · have hstep : finalStep acc t = acc := by
          unfold finalStep
          rw [if_pos hq]
        have hspec : specFinalText s (t :: ts) = specFinalText s ts := by
          rw [specFinalText, if_neg ?_]
          intro hcon
          have := hcon.1
          simp [tokenQualifies, hq] at this
        rw [hstep, hspec, ih]
      · have hstep : finalStep acc t =
            { order := if extractSpeakerId t.speaker none ∈ acc.order then acc.order
                else acc.order ++ [extractSpeakerId t.speaker none],
              text := appendEntry acc.text (extractSpeakerId t.speaker none)
                (cleanTranscriptText t.text),
              lang := insertIfAbsent acc.lang (extractSpeakerId t.speaker none)
                (t.language.getD "?".data),
              lastSpeakerSeen := some (extractSpeakerId t.speaker none) } := by
          unfold finalStep
          rw [if_neg hq]
        rw [hstep, ih]
        dsimp only
        rw [alookup_appendEntry]
        have hqual : tokenQualifies t = true := by
          simp [tokenQualifies, hq]
        by_cases hsp : finalSpeakerOf t = s
        · rw [if_pos (by rwa [finalSpeakerOf] at hsp)]
          rw [specFinalText, if_pos ⟨hqual, hsp⟩]
          rw [finalSpeakerOf] at hsp
          rw [hsp]
          simp [List.append_assoc]
        · rw [if_neg (by rwa [finalSpeakerOf] at hsp)]
          rw [specFinalText, if_neg (fun hcon => hsp hcon.2)]

theorem foldl_finalStep_order (finals : List Token) :
    ∀ acc : RenderAcc,
      (finals.foldl finalStep acc).order
        = acc.order ++ firstSeenFrom acc.order (finalSpeakersSeq finals) := by
  induction finals with
  | nil => intro acc; simp [finalSpeakersSeq, firstSeenFrom]
  | cons t ts ih =>
      intro acc
      rw [List.foldl_cons]
      by_cases hq : trimChars (cleanTranscriptText t.text) = []
      · have hstep : finalStep acc t = acc := by
          unfold finalStep
          rw [if_pos hq]
        have hseq : finalSpeakersSeq (t :: ts) = finalSpeakersSeq ts := by
          rw [finalSpeakersSeq, if_neg (by simp [tokenQualifies, hq])]
        rw [hstep, hseq, ih]
      · have hqual : tokenQualifies t = true := by simp [tokenQualifies, hq]
        have hseq : finalSpeakersSeq (t :: ts)
            = finalSpeakerOf t :: finalSpeakersSeq ts := by
          rw [finalSpeakersSeq, if_pos hqual]
        have hstep : (finalStep acc t).order =
            (if extractSpeakerId t.speaker none ∈ acc.order then acc.order
              else acc.order ++ [extractSpeakerId t.speaker none])
            ∧ (finalStep acc t).text = appendEntry acc.text (extractSpeakerId t.speaker none)
                (cleanTranscriptText t.text) := by
          unfold finalStep
          rw [if_neg hq]
          exact ⟨rfl, rfl⟩
        rw [ih, hstep.1, hseq]
        rw [firstSeenFrom, finalSpeakerOf]
        by_cases hmem : extractSpeakerId t.speaker none ∈ acc.order
        · rw [if_pos hmem, if_pos hmem]
        · rw [if_neg hmem, if_neg hmem]
          simp

theorem foldl_finalStep_lang (finals : List Token) :
    ∀ (acc : RenderAcc) (s : Int),
      alookup (finals.foldl finalStep acc).lang s
        = (alookup acc.lang s).or (specLangOf s finals) := by
  induction finals with
  | nil => intro acc s; simp [specLangOf]
  | cons t ts ih =>
      intro acc s
      rw [List.foldl_cons]
      by_cases hq : trimChars (cleanTranscriptText t.text) = []
      · have hstep : finalStep acc t = acc := by
          unfold finalStep
          rw [if_pos hq]
        have hqual : tokenQualifies t = false := by simp [tokenQualifies, hq]
        have hspec : specLangOf s (t :: ts) = specLangOf s ts := by
          rw [specLangOf, if_neg (fun hcon => by simp [hqual] at hcon)]
        rw [hstep, hspec, ih]
      · have hqual : tokenQualifies t = true := by simp [tokenQualifies, hq]
        have hstep : (finalStep acc t).lang
            = insertIfAbsent acc.lang (extractSpeakerId t.speaker none)
                (t.language.getD "?".data) := by
          unfold finalStep
          rw [if_neg hq]
        rw [ih, hstep, alookup_insertIfAbsent]
        by_cases hsp : finalSpeakerOf t = s
        · have hsp' : extractSpeakerId t.speaker none = s := hsp
          rw [if_pos hsp']
          rw [specLangOf, if_pos ⟨hqual, hsp⟩]
          rw [Option.or_assoc]
          rfl
        · have hsp' : ¬ extractSpeakerId t.speaker none = s := hsp
          rw [if_neg hsp']
          rw [specLangOf, if_neg (fun hcon => hsp hcon.2)]
          rw [Option.or_none]

theorem foldl_finalStep_last (finals : List Token) :
    ∀ acc : RenderAcc,
      (finals.foldl finalStep acc).lastSpeakerSeen
        = (lastFinalSpeaker finals).or acc.lastSpeakerSeen := by
  induction finals with
  | nil => intro acc; simp [lastFinalSpeaker]
  | cons t ts ih =>
      intro acc
      rw [List.foldl_cons, ih, lastFinalSpeaker]
      by_cases hq : trimChars (cleanTranscriptText t.text) = []
      · have hstep : finalStep acc t = acc := by
          unfold finalStep
          rw [if_pos hq]
        have hqual : tokenQualifies t = false := by simp [tokenQualifies, hq]
        rw [hstep, hqual]
        simp
      · have hqual : tokenQualifies t = true := by simp [tokenQualifies, hq]
        have hstep : (finalStep acc t).lastSpeakerSeen
            = some (extractSpeakerId t.speaker none) := by
          unfold finalStep
          rw [if_neg hq]
        rw [hstep, hqual, Option.or_assoc]
        rfl

theorem nonFinalStep_last (acc : RenderAcc) (t : Token) :
    (nonFinalStep acc t).lastSpeakerSeen = acc.lastSpeakerSeen := by
  unfold nonFinalStep
  dsimp only
  split_ifs <;> rfl

theorem nonFinalStep_lang (acc : RenderAcc) (t : Token) :
    (nonFinalStep acc t).lang = acc.lang := by
  unfold nonFinalStep
  dsimp only
  split_ifs <;> rfl

theorem foldl_nonFinalStep_last (nons : List Token) :
    ∀ acc : RenderAcc, (nons.foldl nonFinalStep acc).lastSpeakerSeen = acc.lastSpeakerSeen := by
  induction nons with
  | nil => intro acc; rfl
  | cons t ts ih => intro acc; rw [List.foldl_cons, ih, nonFinalStep_last]

theorem foldl_nonFinalStep_lang (nons : List Token) :
    ∀ acc : RenderAcc, (nons.foldl nonFinalStep acc).lang = acc.lang := by
  induction nons with
  | nil => intro acc; rfl
  | cons t ts ih => intro acc; rw [List.foldl_cons, ih, nonFinalStep_lang]

theorem foldl_nonFinalStep_text (nons : List Token) :
    ∀ (acc : RenderAcc) (s : Int),
      (alookup (nons.foldl nonFinalStep acc).text s).getD []
        = (alookup acc.text s).getD []
          ++ specNonFinalText acc.lastSpeakerSeen s nons := by
  induction nons with
  | nil => intro acc s; simp [specNonFinalText]
  | cons t ts ih =>
      intro acc s
      rw [List.foldl_cons]
      by_cases hq : trimChars (cleanTranscriptText t.text) = []
      · have hstep : nonFinalStep acc t = acc := by
          unfold nonFinalStep
          rw [if_pos hq]
        have hspec : specNonFinalText acc.lastSpeakerSeen s (t :: ts)
            = specNonFinalText acc.lastSpeakerSeen s ts := by
          rw [specNonFinalText, if_neg (fun hcon => by
            simp [tokenQualifies, hq] at hcon)]
        rw [hstep, hspec, ih]
      · have hqual : tokenQualifies t = true := by simp [tokenQualifies, hq]
        have hstep1 : (nonFinalStep acc t).text
            = appendEntry acc.text (extractSpeakerId t.speaker acc.lastSpeakerSeen)
                (cleanTranscriptText t.text) := by
          unfold nonFinalStep
          rw [if_neg hq]
        rw [ih, nonFinalStep_last, hstep1, alookup_appendEntry]
        by_cases hsp : extractSpeakerId t.speaker acc.lastSpeakerSeen = s
        · rw [if_pos hsp]
          rw [specNonFinalText, if_pos ⟨hqual, hsp⟩, hsp]
          simp [List.append_assoc]
        · rw [if_neg hsp]
          rw [specNonFinalText, if_neg (fun hcon => hsp hcon.2)]

theorem foldl_nonFinalStep_order (nons : List Token) :
    ∀ acc : RenderAcc,
      (nons.foldl nonFinalStep acc).order
        = acc.order
          ++ firstSeenFrom acc.order (nonFinalSpeakersSeq acc.lastSpeakerSeen nons) := by
  induction nons with
  | nil => intro acc; simp [nonFinalSpeakersSeq, firstSeenFrom]
  | cons t ts ih =>
      intro acc
      rw [List.foldl_cons]
      by_cases hq : trimChars (cleanTranscriptText t.text) = []
      · have hstep : nonFinalStep acc t = acc := by
          unfold nonFinalStep
          rw [if_pos hq]
        have hseq : nonFinalSpeakersSeq acc.lastSpeakerSeen (t :: ts)
            = nonFinalSpeakersSeq acc.lastSpeakerSeen ts := by
          rw [nonFinalSpeakersSeq, if_neg (by simp [tokenQualifies, hq])]
        rw [hstep, hseq, ih]
      · have hqual : tokenQualifies t = true := by simp [tokenQualifies, hq]
        have hseq : nonFinalSpeakersSeq acc.lastSpeakerSeen (t :: ts)
            = extractSpeakerId t.speaker acc.lastSpeakerSeen
              :: nonFinalSpeakersSeq acc.lastSpeakerSeen ts := by
          rw [nonFinalSpeakersSeq, if_pos hqual]
        have hstep1 : (nonFinalStep acc t).order
            = (if extractSpeakerId t.speaker acc.lastSpeakerSeen ∈ acc.order then acc.order
                else acc.order ++ [extractSpeakerId t.speaker acc.lastSpeakerSeen]) := by
          unfold nonFinalStep
          rw [if_neg hq]
        rw [ih, nonFinalStep_last, hstep1, hseq, firstSeenFrom]
        by_cases hmem : extractSpeakerId t.speaker acc.lastSpeakerSeen ∈ acc.order
        · rw [if_pos hmem, if_pos hmem]
        · rw [if_neg hmem, if_neg hmem]
          simp

theorem finalStep_good (acc : RenderAcc) (t : Token)
    (h : ∀ s ∈ acc.order, ∃ v, alookup acc.text s = some v ∧ trimChars v ≠ []) :
    ∀ s ∈ (finalStep acc t).order,
      ∃ v, alookup (finalStep acc t).text s = some v ∧ trimChars v ≠ [] := by
  by_cases hq : trimChars (cleanTranscriptText t.text) = []
  · have hstep : finalStep acc t = acc := by
      unfold finalStep
      rw [if_pos hq]
    rw [hstep]
    exact h
  · have hord : (finalStep acc t).order
        = (if extractSpeakerId t.speaker none ∈ acc.order then acc.order
            else acc.order ++ [extractSpeakerId t.speaker none]) := by
      unfold finalStep
      rw [if_neg hq]
    have htxt : (finalStep acc t).text
        = appendEntry acc.text (extractSpeakerId t.speaker none)
            (cleanTranscriptText t.text) := by
      unfold finalStep
      rw [if_neg hq]
    intro s hs
    rw [htxt, alookup_appendEntry]
    by_cases hsp : extractSpeakerId t.speaker none = s
    · rw [if_pos hsp]
      exact ⟨_, rfl, trimChars_append_ne _ _ hq⟩
    · rw [if_neg hsp]
      apply h
      rw [hord] at hs
      by_cases hmem : extractSpeakerId t.speaker none ∈ acc.order
      · rwa [if_pos hmem] at hs
      · rw [if_neg hmem] at hs
        rcases List.mem_append.mp hs with h1 | h1
        · exact h1
        · exact absurd (List.mem_singleton.mp h1).symm hsp

theorem nonFinalStep_good (acc : RenderAcc) (t : Token)
    (h : ∀ s ∈ acc.order, ∃ v, alookup acc.text s = some v ∧ trimChars v ≠ []) :
    ∀ s ∈ (nonFinalStep acc t).order,
      ∃ v, alookup (nonFinalStep acc t).text s = some v ∧ trimChars v ≠ [] := by
  by_cases hq : trimChars (cleanTranscriptText t.text) = []
  · have hstep : nonFinalStep acc t = acc := by
      unfold nonFinalStep
      rw [if_pos hq]
    rw [hstep]
    exact h
  · have hord : (nonFinalStep acc t).order
        = (if extractSpeakerId t.speaker acc.lastSpeakerSeen ∈ acc.order then acc.order
            else acc.order ++ [extractSpeakerId t.speaker acc.lastSpeakerSeen]) := by
      unfold nonFinalStep
      rw [if_neg hq]
    have htxt : (nonFinalStep acc t).text
        = appendEntry acc.text (extractSpeakerId t.speaker acc.lastSpeakerSeen)
            (cleanTranscriptText t.text) := by
      unfold nonFinalStep
      rw [if_neg hq]
    intro s hs
    rw [htxt, alookup_appendEntry]
    by_cases hsp : extractSpeakerId t.speaker acc.lastSpeakerSeen = s
    · rw [if_pos hsp]
      exact ⟨_, rfl, trimChars_append_ne _ _ hq⟩
    · rw [if_neg hsp]
      apply h
      rw [hord] at hs
      by_cases hmem : extractSpeakerId t.speaker acc.lastSpeakerSeen ∈ acc.order
      · rwa [if_pos hmem] at hs
      · rw [if_neg hmem] at hs
        rcases List.mem_append.mp hs with h1 | h1
        · exact h1
        · exact absurd (List.mem_singleton.mp h1).symm hsp

theorem foldl_finalStep_good (finals : List Token) :
    ∀ acc : RenderAcc,
      (∀ s ∈ acc.order, ∃ v, alookup acc.text s = some v ∧ trimChars v ≠ []) →
      ∀ s ∈ (finals.foldl finalStep acc).order,
        ∃ v, alookup (finals.foldl finalStep acc).text s = some v ∧ trimChars v ≠ [] := by
  induction finals with
  | nil => intro acc h; exact h
  | cons t ts ih => intro acc h; exact ih (finalStep acc t) (finalStep_good acc t h)

theorem foldl_nonFinalStep_good (nons : List Token) :
    ∀ acc : RenderAcc,
      (∀ s ∈ acc.order, ∃ v, alookup acc.text s = some v ∧ trimChars v ≠ []) →
      ∀ s ∈ (nons.foldl nonFinalStep acc).order,
        ∃ v, alookup (nons.foldl nonFinalStep acc).text s = some v ∧ trimChars v ≠ [] := by
  induction nons with
  | nil => intro acc h; exact h
  | cons t ts ih => intro acc h; exact ih (nonFinalStep acc t) (nonFinalStep_good acc t h)

theorem joinLines_eq_joinTail (x : List Char) (xs : List (List Char)) :
    joinLines (x :: xs) = x ++ joinTail xs := by
  induction xs generalizing x with
  | nil => simp [joinLines, joinTail]
  | cons y rest ih =>
      rw [joinLines, ih, joinTail]

theorem renderFold_ne (acc : RenderAcc) (order : List Int) :
    ∀ res : List Char, res ≠ [] →
      (∀ s ∈ order, (renderLineFor acc s).isSome = true) →
      order.foldl (fun result speaker =>
        match renderLineFor acc speaker with
        | none => result
        | some line => if result = [] then line else result ++ '\n' :: line) res
      = res ++ joinTail (order.map (fun s => (renderLineFor acc s).getD [])) := by
  induction order with
  | nil =>
      intro res hres _
      simp [joinTail]
  | cons s rest ih =>
      intro res hres hall
      obtain ⟨l, hl⟩ := Option.isSome_iff_exists.mp (hall s (List.mem_cons_self s rest))
      rw [List.foldl_cons, List.map_cons, hl]
      dsimp only
      rw [if_neg hres]
      rw [ih (res ++ '\n' :: l) (List.append_ne_nil_of_left_ne_nil hres _)
        (fun s' hs' => hall s' (List.mem_cons_of_mem s hs'))]
      simp [joinTail, List.append_assoc]

theorem renderResult_join (acc : RenderAcc)
    (h : ∀ s ∈ acc.order, ∃ l, renderLineFor acc s = some l ∧ l ≠ []) :
    renderResult acc
      = joinLines (acc.order.map (fun s => (renderLineFor acc s).getD [])) := by
  unfold renderResult
  cases ho : acc.order with
  | nil => simp [joinLines]
  | cons s rest =>
      obtain ⟨l, hl, hlne⟩ := h s (by rw [ho]; exact List.mem_cons_self s rest)
      rw [List.foldl_cons, List.map_cons, hl]
      dsimp only
      rw [if_pos rfl]
      simp only [Option.getD_some]
      rw [renderFold_ne acc rest l hlne (fun s' hs' => by
        obtain ⟨l', hl', _⟩ := h s' (by rw [ho]; exact List.mem_cons_of_mem s hs')
        simp [hl'])]
      rw [joinLines_eq_joinTail]

/-- C7: `render_tokens` renders exactly the specified transcript: speakers in
first-appearance order among final tokens (then new non-final speakers), each
line carrying the speaker's accumulated final text immediately followed by
the non-final overlay in the format
`"Speaker <id>: [<language>] <capitalized, punctuated text>"`, id 0 rendered
as `"Speaker:"` without a number, and a trailing separator line exactly when
any text was rendered. -/
theorem render_tokens_matches_rendering_contract (finals nons : List Token) (sp : Int)
    (hsp : 0 < sp) :
    renderTokens finals nons = renderTokensSpec finals nons
    ∧ speakerLabel 0 = "Speaker:".data
    ∧ speakerLabel sp = "Speaker ".data ++ (toString sp).data ++ ":".data := by
  refine ⟨?_, rfl, by rw [speakerLabel, if_pos hsp]⟩
  have hAorder : (finals.foldl finalStep emptyRenderAcc).order
      = firstSeenFrom [] (finalSpeakersSeq finals) := by
    rw [foldl_finalStep_order]
    rfl
  have hAlast : (finals.foldl finalStep emptyRenderAcc).lastSpeakerSeen
      = lastFinalSpeaker finals := by
    rw [foldl_finalStep_last]
    exact Option.or_none
  have hBorder : (nons.foldl nonFinalStep (finals.foldl finalStep emptyRenderAcc)).order
      = specOrder finals nons := by
    rw [foldl_nonFinalStep_order, hAorder, hAlast]
    rfl
  have hBtext : ∀ s : Int,
      (alookup (nons.foldl nonFinalStep (finals.foldl finalStep emptyRenderAcc)).text s).getD []
        = specFinalText s finals ++ specNonFinalText (lastFinalSpeaker finals) s nons := by
    intro s
    rw [foldl_nonFinalStep_text, foldl_finalStep_text, hAlast]
    simp [emptyRenderAcc, alookup]
  have hBlang : ∀ s : Int,
      alookup (nons.foldl nonFinalStep (finals.foldl finalStep emptyRenderAcc)).lang s
        = specLangOf s finals := by
    intro s
    rw [foldl_nonFinalStep_lang, foldl_finalStep_lang]
    simp [emptyRenderAcc, alookup]
  have hGood := foldl_nonFinalStep_good nons (finals.foldl finalStep emptyRenderAcc)
    (foldl_finalStep_good finals emptyRenderAcc (by simp [emptyRenderAcc]))
  have hspecne : ∀ s : Int, specLine finals nons s ≠ [] := by
    intro s
    unfold specLine
    exact List.append_ne_nil_of_left_ne_nil
      (List.append_ne_nil_of_left_ne_nil
        (List.append_ne_nil_of_left_ne_nil
          (List.append_ne_nil_of_left_ne_nil (speakerLabel_ne_nil s) _) _) _) _
  have hline : ∀ s ∈ (nons.foldl nonFinalStep (finals.foldl finalStep emptyRenderAcc)).order,
      renderLineFor (nons.foldl nonFinalStep (finals.foldl finalStep emptyRenderAcc)) s
        = some (specLine finals nons s) := by
    intro s hs
    obtain ⟨v, hv, hvne⟩ := hGood s hs
    have hveq : v = specFinalText s finals
        ++ specNonFinalText (lastFinalSpeaker finals) s nons := by
      have := hBtext s
      rw [hv] at this
      simpa using this
    unfold renderLineFor
    rw [hv]
    dsimp only
    rw [if_neg (formatTranscriptLine_ne_nil v hvne)]
    rw [hBlang s, hveq]
    rfl
  have hjoin := renderResult_join
    (nons.foldl nonFinalStep (finals.foldl finalStep emptyRenderAcc))
    (fun s hs => ⟨specLine finals nons s, hline s hs, hspecne s⟩)
  have hmap :
      (nons.foldl nonFinalStep (finals.foldl finalStep emptyRenderAcc)).order.map
        (fun s => (renderLineFor
          (nons.foldl nonFinalStep (finals.foldl finalStep emptyRenderAcc)) s).getD [])
      = (specOrder finals nons).map (specLine finals nons) := by
    rw [← hBorder]
    exact List.map_congr_left (fun s hs => by rw [hline s hs]; rfl)
  unfold renderTokens renderTokensSpec
  dsimp only
  rw [hjoin, hmap]
  cases hso : specOrder finals nons with
  | nil => simp [joinLines]
  | cons s rest =>
      rw [List.map_cons, joinLines_eq_joinTail]
      have hne : specLine finals nons s ++ joinTail (rest.map (specLine finals nons)) ≠ [] :=
        List.append_ne_nil_of_left_ne_nil (hspecne s) _
      rw [if_neg hne, if_neg (by simp)]

theorem render_tokens_matches_rendering_contract_witness :
    (0 : Int) < 1
    ∧ renderTokens [] [] = renderTokensSpec [] []
    ∧ speakerLabel 1 = "Speaker ".data ++ (toString (1 : Int)).data ++ ":".data := by
  have h := render_tokens_matches_rendering_contract [] [] 1 (by omega)
  exact ⟨by omega, h.1, h.2.2⟩

/-! ## Theorems: inbound message emission -/

/-- C8 (amended): with no pending clear-suppression, an inbound message
emits the rendered transcript when the message carries a non-empty token or
the rendering (which includes previously accumulated final tokens) is
non-empty, and emits the `"[no speech detected]"` placeholder exactly when
the message has no non-empty token and the rendering is empty. -/
theorem transcript_emission_rule (st : SonioxSession) (tokens : List Token)
    (h : st.suppressRepeat = none) :
    (handleTranscriptMessage st tokens).2
      = (if tokens.any (fun t => !t.text.isEmpty)
            || !(renderTokens
                (st.finalTokens
                  ++ (tokens.filter (fun t => !t.text.isEmpty)).filter (fun t => t.isFinal))
                ((tokens.filter (fun t => !t.text.isEmpty)).filter (fun t => !t.isFinal))).isEmpty
         then some (renderTokens
                (st.finalTokens
                  ++ (tokens.filter (fun t => !t.text.isEmpty)).filter (fun t => t.isFinal))
                ((tokens.filter (fun t => !t.text.isEmpty)).filter (fun t => !t.isFinal)))
         else some noSpeechPlaceholder) := by
  unfold handleTranscriptMessage
  dsimp only
  rw [h]
  split <;> rfl

theorem transcript_emission_rule_witness :
    initialSession.suppressRepeat = none
    ∧ (handleTranscriptMessage initialSession []).2 = some noSpeechPlaceholder := by
  refine ⟨rfl, ?_⟩
  rw [transcript_emission_rule initialSession [] rfl]
  rfl

/-- C8 counterexample to the claim as stated: after a first message carrying
a final token, a second message with no tokens at all still emits the
rendered transcript (the accumulated final text), not the "no speech
detected" placeholder. -/
theorem transcript_placeholder_counterexample :
    (handleTranscriptMessage
        (handleTranscriptMessage initialSession
          [{ text := "Hello".data, isFinal := true, speaker := some 1,
             language := some "en".data }]).1 []).2
      = some ("Speaker 1: [en] Hello.\n===============================".data)
    ∧ (handleTranscriptMessage
        (handleTranscriptMessage initialSession
          [{ text := "Hello".data, isFinal := true, speaker := some 1,
             language := some "en".data }]).1 []).2 ≠ some noSpeechPlaceholder := by
  have h1 : (handleTranscriptMessage
      (handleTranscriptMessage initialSession
        [{ text := "Hello".data, isFinal := true, speaker := some 1,
           language := some "en".data }]).1 []).2
      = some ("Speaker 1: [en] Hello.\n===============================".data) := by
    with_unfolding_all rfl
  refine ⟨h1, ?_⟩
  rw [h1]
  decide

end NeuroNote
